import Mathlib

/-!
Verification development for the Minesweeper AI knowledge-base inference
engine (`src/project/knowledge/minesweeper/minesweeper.py`).

The Python classes `Sentence` and `MinesweeperAI` are shallowly embedded:
Python sets of board cells become `Finset (ℤ × ℤ)` (Python tuples of
unbounded, possibly negative integers), Python `int` counts become `ℤ`,
the mutable `MinesweeperAI` object becomes the record `AIState` passed
explicitly, and each method becomes a function on `AIState`.

Two deliberate modelling points:

* Python iterates over hash sets in an unspecified order.  Where the
  source's per-element loop has an order-independent net effect (the
  `mark_mine`/`mark_safe` loops in `update_knowledge` step 1) we embed
  that net effect as a single batch operation; where order can matter
  (the per-cell loop of step 4) we iterate in a fixed canonical order
  given by `sortCells`.

* The inference scan in `update_knowledge` (`for i, s1 in
  enumerate(self.knowledge): for s2 in self.knowledge[i+1:] ...`)
  appends to the very list being scanned, so the Python loop is not
  structurally bounded; the embedding `step3Go` takes an explicit fuel
  parameter `F` threaded through all callers.  Every Python execution
  that terminates agrees with the embedding for all sufficiently large
  fuel, and all fuel-independent theorems below are proved for every `F`.
-/

namespace MinesweeperAI

/-- A board cell: a Python `(row, col)` tuple of integers. -/
abbrev Cell := ℤ × ℤ

/-- Python `class Sentence`: a set of board cells together with the number of
mines among them (`minesweeper.py` lines 87-121). -/
structure Sentence where
  cells : Finset Cell
  count : ℤ
deriving DecidableEq

/-- Method `Sentence.known_mines`: if `len(self.cells) == self.count and
self.count > 0`, every cell of the sentence is a mine. -/
def Sentence.known_mines (s : Sentence) : Finset Cell :=
  if (s.cells.card : ℤ) = s.count ∧ 0 < s.count then s.cells else ∅

/-- Method `Sentence.known_safes`: if `self.count == 0`, every cell of the
sentence is safe. -/
def Sentence.known_safes (s : Sentence) : Finset Cell :=
  if s.count = 0 then s.cells else ∅

/-- Method `Sentence.mark_mine`: if the cell is present, remove it and decrement
the count. -/
def Sentence.mark_mine (s : Sentence) (c : Cell) : Sentence :=
  if c ∈ s.cells then ⟨s.cells.erase c, s.count - 1⟩ else s

/-- Method `Sentence.mark_safe`: if the cell is present, remove it; the count is
unchanged. -/
def Sentence.mark_safe (s : Sentence) (c : Cell) : Sentence :=
  if c ∈ s.cells then ⟨s.cells.erase c, s.count⟩ else s

/-- The mutable state of a `MinesweeperAI` object. -/
structure AIState where
  height : ℕ
  width : ℕ
  moves_made : Finset Cell
  mines : Finset Cell
  safes : Finset Cell
  knowledge : List Sentence
deriving DecidableEq

/-- Method `MinesweeperAI.__init__`. -/
def initAI (h w : ℕ) : AIState :=
  ⟨h, w, ∅, ∅, ∅, []⟩

/-- Method `MinesweeperAI.mark_mine`: record the cell as a mine and project it
out of every sentence. -/
def AIState.mark_mine (st : AIState) (c : Cell) : AIState :=
  { st with mines := insert c st.mines,
            knowledge := st.knowledge.map (fun s => s.mark_mine c) }

/-- Method `MinesweeperAI.mark_safe`: record the cell as safe and project it out
of every sentence. -/
def AIState.mark_safe (st : AIState) (c : Cell) : AIState :=
  { st with safes := insert c st.safes,
            knowledge := st.knowledge.map (fun s => s.mark_safe c) }

/-- The eight neighbour offsets scanned by `get_neighbors`. -/
def neighborOffsets : List (ℤ × ℤ) :=
  [(-1, -1), (-1, 0), (-1, 1), (0, -1), (0, 1), (1, -1), (1, 0), (1, 1)]

/-- Method `MinesweeperAI.get_neighbors`: the in-bounds cells within one row and
column of `c`, excluding `c` itself. -/
def AIState.get_neighbors (st : AIState) (c : Cell) : Finset Cell :=
  ((neighborOffsets.map (fun d => (c.1 + d.1, c.2 + d.2))).filter
    (fun x => decide (0 ≤ x.1 ∧ x.1 < (st.height : ℤ) ∧
                      0 ≤ x.2 ∧ x.2 < (st.width : ℤ)))).toFinset

/-- Net effect of `for mine in new_mines: if mine not in self.mines:
self.mark_mine(mine)` over a whole set `S` at once: the cells of
`S \ st.mines` enter `mines` and are projected out of every sentence,
each removal decrementing that sentence's count.  The Boolean is the
`changes_made` contribution: whether at least one cell was new. -/
def AIState.mark_new_mines (st : AIState) (S : Finset Cell) : AIState × Bool :=
  let D := S \ st.mines
  ({ st with mines := st.mines ∪ D,
             knowledge := st.knowledge.map (fun s =>
               ⟨s.cells \ D, s.count - ((s.cells ∩ D).card : ℤ)⟩) },
   decide (D ≠ ∅))

/-- Net effect of `for safe in new_safes: if safe not in self.safes:
self.mark_safe(safe)` over a whole set `S` at once. -/
def AIState.mark_new_safes (st : AIState) (S : Finset Cell) : AIState × Bool :=
  let D := S \ st.safes
  ({ st with safes := st.safes ∪ D,
             knowledge := st.knowledge.map (fun s =>
               ⟨s.cells \ D, s.count⟩) },
   decide (D ≠ ∅))

/-- Step 1 of `update_knowledge`, iterating over the positions of the
sentence list (the list itself is neither extended nor shortened during
this step, so iterating `self.knowledge.copy()` by position is faithful;
each iteration reads the current, possibly already mutated, sentence).
`new_mines` and `new_safes` are both read off before either batch of
marks, exactly as in the source. -/
def step1Go : List ℕ → AIState → Bool → AIState × Bool
  | [], st, ch => (st, ch)
  | i :: rest, st, ch =>
    match st.knowledge[i]? with
    | none => step1Go rest st ch
    | some s =>
      let km := s.known_mines
      let ks := s.known_safes
      let p1 := st.mark_new_mines km
      let p2 := p1.1.mark_new_safes ks
      step1Go rest p2.1 (ch || p1.2 || p2.2)

/-- Step 1 of `update_knowledge` (lines 166-178). -/
def step1 (st : AIState) : AIState × Bool :=
  step1Go (List.range st.knowledge.length) st false

/-- Step 2 of `update_knowledge` (line 181): drop sentences whose cell
set is empty. -/
def filterKnowledge (st : AIState) : AIState :=
  { st with knowledge := st.knowledge.filter (fun s => decide (0 < s.cells.card)) }

/-- Method `MinesweeperAI.infer_from_sentences` (lines 206-215). -/
def infer_from_sentences (s1 s2 : Sentence) : Option Sentence :=
  if s1.cells ⊆ s2.cells then
    some ⟨s2.cells \ s1.cells, s2.count - s1.count⟩
  else if s2.cells ⊆ s1.cells then
    some ⟨s1.cells \ s2.cells, s1.count - s2.count⟩
  else
    none

/-- The body of the inner loop of step 3: when something is inferred
from `s1` and `s2` and it is not already in the current knowledge list,
append it and record a change. -/
def inferStep (s1 : Sentence) (acc : List Sentence × Bool) (s2 : Sentence) :
    List Sentence × Bool :=
  match infer_from_sentences s1 s2 with
  | none => acc
  | some t => if t ∈ acc.1 then acc else (acc.1 ++ [t], true)

/-- The inner loop of step 3: `for s2 in self.knowledge[i+1:]`.  The
slice is a snapshot taken when the inner loop starts, while the
membership test `inferred not in self.knowledge` and the append act on
the current list. -/
def step3Inner (s1 : Sentence) (slice : List Sentence)
    (acc : List Sentence × Bool) : List Sentence × Bool :=
  slice.foldl (inferStep s1) acc

/-- The outer loop of step 3: `for i, s1 in enumerate(self.knowledge)`.
Python's list iterator re-checks the current length each step, so freshly
appended sentences are themselves scanned; `fuel` bounds the recursion. -/
def step3Go : ℕ → ℕ → List Sentence × Bool → List Sentence × Bool
  | 0, _, acc => acc
  | fuel + 1, i, acc =>
    match acc.1[i]? with
    | none => acc
    | some s1 => step3Go fuel (i + 1) (step3Inner s1 (acc.1.drop (i + 1)) acc)

/-- Step 3 of `update_knowledge` (lines 184-189). -/
def step3 (F : ℕ) (st : AIState) : AIState × Bool :=
  let r := step3Go F 0 (st.knowledge, false)
  ({ st with knowledge := r.1 }, r.2)

/-- Python `set.intersection(*[s.cells for s in self.knowledge])`, or `set()`
when the knowledge list is empty (line 192). -/
def allCellsInter : List Sentence → Finset Cell
  | [] => ∅
  | s :: rest => rest.foldl (fun acc s2 => acc ∩ s2.cells) s.cells

/-- A canonical (lexicographic) order on cells, used to iterate over
Python sets whose iteration order the source leaves unspecified. -/
def cellLE (a b : Cell) : Prop :=
  a.1 < b.1 ∨ (a.1 = b.1 ∧ a.2 ≤ b.2)

instance : DecidableRel cellLE := fun a b =>
  inferInstanceAs (Decidable (a.1 < b.1 ∨ (a.1 = b.1 ∧ a.2 ≤ b.2)))

instance : IsTotal Cell cellLE :=
  ⟨fun a b => by
    rcases lt_trichotomy a.1 b.1 with h | h | h
    · exact Or.inl (Or.inl h)
    · rcases le_total a.2 b.2 with h2 | h2
      · exact Or.inl (Or.inr ⟨h, h2⟩)
      · exact Or.inr (Or.inr ⟨h.symm, h2⟩)
    · exact Or.inr (Or.inl h)⟩

instance : IsTrans Cell cellLE :=
  ⟨fun a b c h1 h2 => by
    rcases h1 with h1 | ⟨h1, h1b⟩ <;> rcases h2 with h2 | ⟨h2, h2b⟩
    · exact Or.inl (h1.trans h2)
    · exact Or.inl (h2 ▸ h1)
    · exact Or.inl (h1 ▸ h2)
    · exact Or.inr ⟨h1.trans h2, h1b.trans h2b⟩⟩

instance : IsAntisymm Cell cellLE :=
  ⟨fun a b h1 h2 => by
    rcases h1 with h1 | ⟨h1, h1b⟩ <;> rcases h2 with h2 | ⟨h2, h2b⟩
    · exact absurd (h1.trans h2) (lt_irrefl _)
    · exact absurd h1 (h2 ▸ lt_irrefl _)
    · exact absurd h2 (h1 ▸ lt_irrefl _)
    · exact Prod.ext h1 (le_antisymm h1b h2b)⟩

/-- Enumerate a finite set of cells in the canonical order.  (Insertion
sort is used rather than `Finset.sort` so that the definition is
structurally recursive and evaluates inside the kernel; the result is
well defined on the quotient because a sorted enumeration is unique up
to the antisymmetric order `cellLE`.) -/
def sortCells (s : Finset Cell) : List Cell :=
  Quotient.liftOn s.val (fun l => List.insertionSort cellLE l)
    (fun a b hab =>
      List.eq_of_perm_of_sorted
        ((List.perm_insertionSort cellLE a).trans
          (hab.trans (List.perm_insertionSort cellLE b).symm))
        (List.sorted_insertionSort cellLE a)
        (List.sorted_insertionSort cellLE b))

/-- The body of the per-cell loop in step 4 (lines 193-201). -/
def step4Cell (acc : AIState × Bool) (c : Cell) : AIState × Bool :=
  let st := acc.1
  let containing := st.knowledge.filter (fun s => decide (c ∈ s.cells))
  if containing.all (fun s => decide (s.count = (s.cells.card : ℤ))) then
    if c ∈ st.mines then acc else (st.mark_mine c, true)
  else if containing.all (fun s => decide (s.count = 0)) then
    if c ∈ st.safes then acc else (st.mark_safe c, true)
  else acc

/-- Step 4 of `update_knowledge` (lines 192-201): the intersection of all
sentences' cells is snapshotted once, then each cell in it is tested
against the current (mutating) knowledge. -/
def step4 (st : AIState) : AIState × Bool :=
  (sortCells (allCellsInter st.knowledge)).foldl step4Cell (st, false)

/-- One round of the `update_knowledge` loop body, returning the state
together with the round's `changes_made` flag. -/
def bodyRound (F : ℕ) (st : AIState) : AIState × Bool :=
  let p1 := step1 st
  let st2 := filterKnowledge p1.1
  let p3 := step3 F st2
  let p4 := step4 p3.1
  (p4.1, p1.2 || p3.2 || p4.2)

/-- The `for _ in range(max_iterations)` loop of `update_knowledge`:
run rounds until one reports no change or the round budget is spent. -/
def updateLoop (F : ℕ) : ℕ → AIState → AIState
  | 0, st => st
  | fuel + 1, st =>
    let p := bodyRound F st
    if p.2 then updateLoop F fuel p.1 else p.1

/-- Method `MinesweeperAI.update_knowledge` with its hard cap of 100 rounds. -/
def update_knowledge (F : ℕ) (st : AIState) : AIState :=
  updateLoop F 100 st

/-- Holds when the `update_knowledge` loop, given `fuel` rounds, reaches
a round that reports no change (i.e. exits through the `break` rather
than by exhausting `range(max_iterations)`). -/
def settlesWithin (F : ℕ) : ℕ → AIState → Bool
  | 0, _ => false
  | fuel + 1, st =>
    let p := bodyRound F st
    if p.2 then settlesWithin F fuel p.1 else true

/-- The state built by `add_knowledge` (lines 148-157) before the
derivation loop runs: record the move, mark the observed cell safe,
and append the new sentence over the still-unclassified neighbours
when it is non-empty. -/
def addPre (st : AIState) (cell : Cell) (count : ℤ) : AIState :=
  let st1 := { st with moves_made := insert cell st.moves_made }
  let st2 := st1.mark_safe cell
  let nbs := st2.get_neighbors cell
  let unknown := (nbs \ st2.safes) \ st2.mines
  let newS : Sentence := ⟨unknown, count - ((nbs ∩ st2.mines).card : ℤ)⟩
  if 0 < newS.cells.card
  then { st2 with knowledge := st2.knowledge ++ [newS] }
  else st2

/-- Method `MinesweeperAI.add_knowledge` (lines 147-159). -/
def add_knowledge (F : ℕ) (st : AIState) (cell : Cell) (count : ℤ) : AIState :=
  update_knowledge F (addPre st cell count)

/-- Models `random.choice` over a finite set of cells: `None` on the empty
set, otherwise an element of the set.  The random draw is modelled by
an injected index `r` into the canonical enumeration of the set (§5 of
the spec requires the randomness to be injectable). -/
def pickMove (S : Finset Cell) (r : ℕ) : Option Cell :=
  match sortCells S with
  | [] => none
  | x :: xs => some ((x :: xs).get ⟨r % (x :: xs).length, Nat.mod_lt _ (Nat.succ_pos _)⟩)

/-- Method `MinesweeperAI.make_safe_move`: `random.choice` over
`self.safes - self.moves_made`, or `None` when that set is empty. -/
def make_safe_move (st : AIState) (r : ℕ) : Option Cell :=
  pickMove (st.safes \ st.moves_made) r

/-- The full board `set((i, j) for i in range(height) for j in range(width))`. -/
def AIState.allCells (st : AIState) : Finset Cell :=
  (Finset.range st.height ×ˢ Finset.range st.width).image
    (fun p => ((p.1 : ℤ), (p.2 : ℤ)))

/-- Method `MinesweeperAI.make_random_move`: `random.choice` over
`all_moves - self.moves_made - self.mines`, or `None` when empty. -/
def make_random_move (st : AIState) (r : ℕ) : Option Cell :=
  pickMove ((st.allCells \ st.moves_made) \ st.mines) r

/-!
### Derived predicates

Specification-level notions used to state the properties: session
progress, cleanliness (no classified cell left inside a sentence),
soundness with respect to a ground-truth mine assignment, and the states
reachable by a sequence of observations.
-/

/-- Relates a state to any state arising later in the same session's
derivation work: board size and move set untouched, classification sets
only grown. -/
def Progress (st st' : AIState) : Prop :=
  st.height = st'.height ∧ st.width = st'.width ∧
  st.moves_made = st'.moves_made ∧
  st.mines ⊆ st'.mines ∧ st.safes ⊆ st'.safes

/-- No cell classified in `mines` or `safes` occurs in any sentence. -/
def Clean (st : AIState) : Prop :=
  ∀ s ∈ st.knowledge, ∀ c ∈ s.cells, c ∉ st.mines ∧ c ∉ st.safes

/-- The two classification sets are disjoint. -/
def DisjointSM (st : AIState) : Prop :=
  st.safes ∩ st.mines = ∅

/-- Step 1 of the derivation loop has nothing to do: everything each
sentence's triggers would extract is already classified. -/
def Step1Quiet (st : AIState) : Prop :=
  ∀ s ∈ st.knowledge, s.known_mines ⊆ st.mines ∧ s.known_safes ⊆ st.safes

/-- The number of mines of the ground-truth assignment `M` inside a cell
set. -/
def trueCount (M : Cell → Bool) (s : Finset Cell) : ℤ :=
  ((s.filter (fun c => M c = true)).card : ℤ)

/-- Soundness of an engine state with respect to a ground-truth mine
assignment `M`: every classified mine is a mine, every classified safe
is not, and every sentence counts exactly the mines among its cells. -/
def Sound (M : Cell → Bool) (st : AIState) : Prop :=
  (∀ c ∈ st.mines, M c = true) ∧
  (∀ c ∈ st.safes, M c = false) ∧
  (∀ s ∈ st.knowledge, s.count = trueCount M s.cells)

/-- A well-formed observation with respect to the ground truth `M`: the
observed cell is not a mine, and the reported count is the true number
of mines among its in-bounds neighbours (the value the board's
`nearby_mines` would return). -/
def WFObs (M : Cell → Bool) (st : AIState) (cell : Cell) (count : ℤ) : Prop :=
  M cell = false ∧ count = trueCount M (st.get_neighbors cell)

/-- The engine states reachable from a fresh `MinesweeperAI` by a
sequence of `add_knowledge` calls whose arguments satisfy `P` at the
state of the call. -/
inductive ReachableW (P : AIState → Cell → ℤ → Prop) (F : ℕ) : AIState → Prop
  | init (h w : ℕ) : ReachableW P F (initAI h w)
  | step {st : AIState} {cell : Cell} {count : ℤ} :
      ReachableW P F st → P st cell count →
      ReachableW P F (add_knowledge F st cell count)

/-!
### Concrete scenario constants

A 2 × 2 board with a single mine at `(0, 1)`.  Observing `((0, 0), 1)`
and then `((1, 1), 1)` — both observations truthful for that board —
drives the engine into a knowledge state with two duplicate sentences,
from which the derivation loop re-infers the empty sentence every round
and never reaches a no-change round.

A second scenario (`stC`, `stD`) observes `((0, 0), 3)` and then
`((0, 1), 2)`: the second call observes a cell the engine has already
proven to be a mine, which `add_knowledge` nevertheless marks safe.
-/

/-- Ground truth for the oscillation scenario: one mine at `(0, 1)`. -/
def M2 : Cell → Bool := fun c => decide (c = ((0 : ℤ), (1 : ℤ)))

/-- State after observing `((0, 0), 1)` on a fresh 2 × 2 engine. -/
def stA : AIState := add_knowledge 100 (initAI 2 2) (0, 0) 1

/-- State after additionally observing `((1, 1), 1)`. -/
def stB : AIState := add_knowledge 100 stA (1, 1) 1

/-- The sentence `{(0,1), (1,0)} = 1`, present twice in `stB`. -/
def sS : Sentence := ⟨{((0 : ℤ), (1 : ℤ)), ((1 : ℤ), (0 : ℤ))}, 1⟩

/-- The empty sentence `∅ = 0` that the loop keeps re-inferring. -/
def eS : Sentence := ⟨∅, 0⟩

/-- Literal form of `stA`. -/
def stA_lit : AIState :=
  ⟨2, 2, {((0 : ℤ), (0 : ℤ))}, ∅, {((0 : ℤ), (0 : ℤ))},
   [⟨{((0 : ℤ), (1 : ℤ)), ((1 : ℤ), (0 : ℤ)), ((1 : ℤ), (1 : ℤ))}, 1⟩]⟩

/-- Literal form of the state handed to the derivation loop by the
second `add_knowledge` call of the oscillation scenario. -/
def stB_pre : AIState :=
  ⟨2, 2, {((1 : ℤ), (1 : ℤ)), ((0 : ℤ), (0 : ℤ))}, ∅,
   {((1 : ℤ), (1 : ℤ)), ((0 : ℤ), (0 : ℤ))}, [sS, sS]⟩

/-- Literal form of the oscillating fixed point of the round body. -/
def stB_osc : AIState :=
  ⟨2, 2, {((1 : ℤ), (1 : ℤ)), ((0 : ℤ), (0 : ℤ))}, ∅,
   {((1 : ℤ), (1 : ℤ)), ((0 : ℤ), (0 : ℤ))}, [sS, sS, eS]⟩

/-- A hand-built state with one unvisited safe cell, used to exercise
the move selectors. -/
def stW : AIState :=
  ⟨2, 2, ∅, {((1 : ℤ), (0 : ℤ))}, {((0 : ℤ), (0 : ℤ))}, []⟩

/-- A 1 × 1 board whose only cell has been played: the random-move
candidate set is exhausted. -/
def stFull : AIState :=
  ⟨1, 1, {((0 : ℤ), (0 : ℤ))}, ∅, {((0 : ℤ), (0 : ℤ))}, []⟩

/-- State after observing `((0, 0), 3)` on a fresh 2 × 2 engine: all
three neighbours of `(0, 0)` become classified mines. -/
def stC : AIState := add_knowledge 100 (initAI 2 2) (0, 0) 3

/-- State after additionally observing `((0, 1), 2)` — a cell already
classified as a mine. -/
def stD : AIState := add_knowledge 100 stC (0, 1) 2

/-!
### Basic facts about the derivation loop and the concrete scenarios
-/

theorem updateLoop_succ (F n : ℕ) (st : AIState) :
    updateLoop F (n + 1) st =
      (if (bodyRound F st).2 then updateLoop F n (bodyRound F st).1
       else (bodyRound F st).1) := rfl

theorem settlesWithin_succ (F n : ℕ) (st : AIState) :
    settlesWithin F (n + 1) st =
      (if (bodyRound F st).2 then settlesWithin F n (bodyRound F st).1
       else true) := rfl

/-- A state on which the round body reports a change yet returns the
state unchanged is a trap: the loop spins on it until the round budget
is exhausted and returns it. -/
theorem osc_updateLoop {F : ℕ} {st : AIState}
    (h : bodyRound F st = (st, true)) : ∀ n, updateLoop F n st = st := by
  intro n
  induction n with
  | zero => rfl
  | succ n ih => rw [updateLoop_succ, h]; simpa using ih

/-- On such a trap state the loop never reaches a no-change round. -/
theorem osc_settles {F : ℕ} {st : AIState}
    (h : bodyRound F st = (st, true)) : ∀ n, settlesWithin F n st = false := by
  intro n
  induction n with
  | zero => rfl
  | succ n ih => rw [settlesWithin_succ, h]; simpa using ih

set_option maxRecDepth 10000 in
theorem stA_eq : stA = stA_lit := by decide

set_option maxRecDepth 10000 in
theorem stB_pre_eq : addPre stA_lit (1, 1) 1 = stB_pre := by decide

set_option maxRecDepth 10000 in
theorem body_stB_pre : bodyRound 100 stB_pre = (stB_osc, true) := by decide

set_option maxRecDepth 10000 in
theorem body_stB_osc : bodyRound 100 stB_osc = (stB_osc, true) := by decide

/-- The second observation of the oscillation scenario returns the trap
state: two duplicate sentences plus the empty sentence. -/
theorem stB_eq : stB = stB_osc := by
  show add_knowledge 100 stA (1, 1) 1 = stB_osc
  rw [add_knowledge, stA_eq, stB_pre_eq, update_knowledge,
      show (100 : ℕ) = 99 + 1 from rfl, updateLoop_succ, body_stB_pre]
  simpa using osc_updateLoop body_stB_osc 99

theorem stB_not_settling : settlesWithin 100 100 stB = false := by
  rw [stB_eq]; exact osc_settles body_stB_osc 100

set_option maxRecDepth 10000 in
theorem wfObs_first : WFObs M2 (initAI 2 2) (0, 0) 1 := by
  constructor
  · decide
  · decide

set_option maxRecDepth 10000 in
theorem wfObs_second : WFObs M2 stA (1, 1) 1 := by
  constructor
  · decide
  · decide

theorem stB_reachable : ReachableW (WFObs M2) 100 stB :=
  ReachableW.step (ReachableW.step (ReachableW.init 2 2) wfObs_first) wfObs_second

/-- C3: subset elimination.  When the first argument's cells are a
subset of the second's, `infer_from_sentences` derives exactly the
difference sentence with the difference count; when neither cell set
contains the other it derives nothing. -/
theorem C3_subset_elimination :
    ∀ s1 s2 : Sentence,
      (s1.cells ⊆ s2.cells →
        infer_from_sentences s1 s2 =
          some ⟨s2.cells \ s1.cells, s2.count - s1.count⟩) ∧
      (¬ s1.cells ⊆ s2.cells → ¬ s2.cells ⊆ s1.cells →
        infer_from_sentences s1 s2 = none) := by
  intro s1 s2
  constructor
  · intro h
    simp [infer_from_sentences, h]
  · intro h1 h2
    simp [infer_from_sentences, h1, h2]

/-- Witness for C3 at concrete sentences. -/
theorem C3_witness :
    infer_from_sentences ⟨{((0 : ℤ), (1 : ℤ))}, 1⟩
        ⟨{((0 : ℤ), (1 : ℤ)), ((1 : ℤ), (0 : ℤ))}, 1⟩ =
      some ⟨{((1 : ℤ), (0 : ℤ))}, 0⟩ ∧
    infer_from_sentences ⟨{((0 : ℤ), (1 : ℤ))}, 1⟩ ⟨{((1 : ℤ), (0 : ℤ))}, 2⟩ =
      none := by
  constructor
  · rw [(C3_subset_elimination ⟨{((0 : ℤ), (1 : ℤ))}, 1⟩
      ⟨{((0 : ℤ), (1 : ℤ)), ((1 : ℤ), (0 : ℤ))}, 1⟩).1 (by decide)]
    decide
  · exact (C3_subset_elimination _ _).2 (by decide) (by decide)

/-- C1 counterexample: two observations on a 2 × 2 board, each meeting
the §4.2 preconditions (in bounds, not previously observed, count in
[0, 8], count at least the number of already-known mines among the
neighbours), leave `(0, 1)` classified both safe and mine: the second
call observes a cell already proven to be a mine and `add_knowledge`
unconditionally marks it safe. -/
theorem C1_cex :
    ((0 : ℤ) ≤ 0 ∧ (0 : ℤ) < 2 ∧
      ((0 : ℤ), (0 : ℤ)) ∉ (initAI 2 2).moves_made ∧ (0 : ℤ) ≤ 3 ∧ (3 : ℤ) ≤ 8 ∧
      (((((initAI 2 2).get_neighbors (0, 0)) ∩ (initAI 2 2).mines).card : ℤ) ≤ 3)) ∧
    ((0 : ℤ) ≤ 1 ∧ (1 : ℤ) < 2 ∧
      ((0 : ℤ), (1 : ℤ)) ∉ stC.moves_made ∧ (0 : ℤ) ≤ 2 ∧ (2 : ℤ) ≤ 8 ∧
      ((((stC.get_neighbors (0, 1)) ∩ stC.mines).card : ℤ) ≤ 2)) ∧
    ((0 : ℤ), (1 : ℤ)) ∈ stD.safes ∧ ((0 : ℤ), (1 : ℤ)) ∈ stD.mines := by
  set_option maxRecDepth 40000 in decide

/-- C2 counterexample: a sequence of observations that are well formed
even with respect to a fixed ground truth reaches, at a return of
`update_knowledge`, a knowledge collection containing the empty
sentence, whose cell set has size 0 — refuting `|cells| > 0`. -/
theorem C2_cex :
    ReachableW (WFObs M2) 100 stB ∧ eS ∈ stB.knowledge ∧ eS.cells.card = 0 := by
  refine ⟨stB_reachable, ?_, rfl⟩
  rw [stB_eq]
  decide

/-- C10 counterexample: at the same reachable settle the collection
holds the empty-cell sentence and two equal entries at distinct
positions — duplicates are never dropped. -/
theorem C10_cex :
    ReachableW (WFObs M2) 100 stB ∧ stB.knowledge = [sS, sS, eS] ∧
      sS ≠ eS ∧ eS.cells = ∅ := by
  refine ⟨stB_reachable, ?_, by decide, rfl⟩
  rw [stB_eq]
  rfl

/-- C5: on the oscillation scenario — whose two observations are well
formed for the ground truth `M2` — the derivation loop never reaches a
no-change round within the 100-round cap, neither inside the second
`add_knowledge` call nor when restarted on the state it returns: the
hard iteration cap binds. -/
theorem C5_cap_binds :
    WFObs M2 (initAI 2 2) (0, 0) 1 ∧ WFObs M2 stA (1, 1) 1 ∧
    settlesWithin 100 100 (addPre stA (1, 1) 1) = false ∧
    settlesWithin 100 100 stB = false := by
  refine ⟨wfObs_first, wfObs_second, ?_, stB_not_settling⟩
  rw [stA_eq, stB_pre_eq, show (100 : ℕ) = 99 + 1 from rfl, settlesWithin_succ,
      body_stB_pre]
  simpa using osc_settles body_stB_osc 99

/-!
### Monotonicity of the classification sets
-/

theorem progress_rfl (st : AIState) : Progress st st :=
  ⟨rfl, rfl, rfl, Finset.Subset.refl _, Finset.Subset.refl _⟩

theorem progress_trans {a b c : AIState} (h1 : Progress a b) (h2 : Progress b c) :
    Progress a c :=
  ⟨h1.1.trans h2.1, h1.2.1.trans h2.2.1, h1.2.2.1.trans h2.2.2.1,
   h1.2.2.2.1.trans h2.2.2.2.1, h1.2.2.2.2.trans h2.2.2.2.2⟩

theorem mark_mine_progress (st : AIState) (c : Cell) :
    Progress st (st.mark_mine c) :=
  ⟨rfl, rfl, rfl, Finset.subset_insert _ _, Finset.Subset.refl _⟩

theorem mark_safe_progress (st : AIState) (c : Cell) :
    Progress st (st.mark_safe c) :=
  ⟨rfl, rfl, rfl, Finset.Subset.refl _, Finset.subset_insert _ _⟩

theorem mark_new_mines_progress (st : AIState) (S : Finset Cell) :
    Progress st (st.mark_new_mines S).1 :=
  ⟨rfl, rfl, rfl, Finset.subset_union_left, Finset.Subset.refl _⟩

theorem mark_new_safes_progress (st : AIState) (S : Finset Cell) :
    Progress st (st.mark_new_safes S).1 :=
  ⟨rfl, rfl, rfl, Finset.Subset.refl _, Finset.subset_union_left⟩

theorem step1Go_progress (l : List ℕ) :
    ∀ (st : AIState) (ch : Bool), Progress st (step1Go l st ch).1 := by
  induction l with
  | nil => intro st ch; exact progress_rfl st
  | cons i rest ih =>
    intro st ch
    show Progress st (step1Go (i :: rest) st ch).1
    rw [step1Go]
    cases h : st.knowledge[i]? with
    | none => exact ih st ch
    | some s =>
      exact progress_trans
        (progress_trans (mark_new_mines_progress st s.known_mines)
          (mark_new_safes_progress _ s.known_safes))
        (ih _ _)

theorem step1_progress (st : AIState) : Progress st (step1 st).1 :=
  step1Go_progress _ st false

theorem filterKnowledge_progress (st : AIState) : Progress st (filterKnowledge st) :=
  ⟨rfl, rfl, rfl, Finset.Subset.refl _, Finset.Subset.refl _⟩

theorem step3_progress (F : ℕ) (st : AIState) : Progress st (step3 F st).1 :=
  ⟨rfl, rfl, rfl, Finset.Subset.refl _, Finset.Subset.refl _⟩

theorem step4Cell_progress (acc : AIState × Bool) (c : Cell) :
    Progress acc.1 (step4Cell acc c).1 := by
  unfold step4Cell
  dsimp only
  split
  · split
    · exact progress_rfl _
    · exact mark_mine_progress _ _
  · split
    · split
      · exact progress_rfl _
      · exact mark_safe_progress _ _
    · exact progress_rfl _

theorem foldl_step4Cell_progress (l : List Cell) :
    ∀ acc : AIState × Bool, Progress acc.1 (l.foldl step4Cell acc).1 := by
  induction l with
  | nil => intro acc; exact progress_rfl _
  | cons c rest ih =>
    intro acc
    exact progress_trans (step4Cell_progress acc c) (ih (step4Cell acc c))

theorem step4_progress (st : AIState) : Progress st (step4 st).1 :=
  foldl_step4Cell_progress _ (st, false)

theorem bodyRound_progress (F : ℕ) (st : AIState) :
    Progress st (bodyRound F st).1 :=
  progress_trans (step1_progress st)
    (progress_trans (filterKnowledge_progress _)
      (progress_trans (step3_progress F _) (step4_progress _)))

theorem updateLoop_progress (F : ℕ) : ∀ (n : ℕ) (st : AIState),
    Progress st (updateLoop F n st) := by
  intro n
  induction n with
  | zero => intro st; exact progress_rfl st
  | succ n ih =>
    intro st
    rw [updateLoop_succ]
    split
    · exact progress_trans (bodyRound_progress F st) (ih _)
    · exact bodyRound_progress F st

theorem update_knowledge_progress (F : ℕ) (st : AIState) :
    Progress st (update_knowledge F st) :=
  updateLoop_progress F 100 st

theorem addPre_fields (st : AIState) (cell : Cell) (count : ℤ) :
    (addPre st cell count).height = st.height ∧
    (addPre st cell count).width = st.width ∧
    (addPre st cell count).moves_made = insert cell st.moves_made ∧
    (addPre st cell count).mines = st.mines ∧
    (addPre st cell count).safes = insert cell st.safes := by
  unfold addPre AIState.mark_safe
  dsimp only
  split <;> exact ⟨rfl, rfl, rfl, rfl, rfl⟩

/-- C6: the classification sets only grow.  Every `add_knowledge` call —
the only operation that mutates the engine — maps `safes` and `mines` to
supersets; since the move selectors are pure queries, a cell once
classified is never removed by any later operation. -/
theorem C6_monotone :
    ∀ (F : ℕ) (st : AIState) (cell : Cell) (count : ℤ),
      st.safes ⊆ (add_knowledge F st cell count).safes ∧
      st.mines ⊆ (add_knowledge F st cell count).mines := by
  intro F st cell count
  have hp := update_knowledge_progress F (addPre st cell count)
  have hf := addPre_fields st cell count
  constructor
  · refine Finset.Subset.trans ?_ hp.2.2.2.2
    rw [hf.2.2.2.2]
    exact Finset.subset_insert _ _
  · refine Finset.Subset.trans ?_ hp.2.2.2.1
    rw [hf.2.2.2.1]

/-- C8: `add_knowledge` performs no precondition validation: for every
cell (in bounds or not, already observed or not) and every integer count
(negative or arbitrarily large), the call is accepted and the knowledge
base is updated — the cell is recorded in `moves_made` and marked
safe. -/
theorem C8_no_validation :
    ∀ (F : ℕ) (st : AIState) (cell : Cell) (count : ℤ),
      (add_knowledge F st cell count).moves_made = insert cell st.moves_made ∧
      cell ∈ (add_knowledge F st cell count).safes := by
  intro F st cell count
  have hp := update_knowledge_progress F (addPre st cell count)
  have hf := addPre_fields st cell count
  constructor
  · show (update_knowledge F (addPre st cell count)).moves_made = insert cell st.moves_made
    rw [← hp.2.2.1]
    exact hf.2.2.1
  · show cell ∈ (update_knowledge F (addPre st cell count)).safes
    refine hp.2.2.2.2 ?_
    rw [hf.2.2.2.2]
    exact Finset.mem_insert_self _ _

/-!
### Properties of the canonical enumeration and small list facts
-/

theorem mem_of_getElem_opt {α : Type} {l : List α} {i : ℕ} {a : α}
    (h : l[i]? = some a) : a ∈ l := by
  obtain ⟨hlt, he⟩ := List.getElem?_eq_some.mp h
  exact he ▸ List.getElem_mem hlt

theorem sortCells_coe (S : Finset Cell) :
    ((sortCells S : List Cell) : Multiset Cell) = S.val := by
  rcases S with ⟨m, hm⟩
  revert hm
  induction m using Quotient.inductionOn with
  | h l => exact fun hm => Quot.sound (List.perm_insertionSort cellLE l)

theorem mem_sortCells {S : Finset Cell} {c : Cell} : c ∈ sortCells S ↔ c ∈ S := by
  rw [← Multiset.mem_coe, sortCells_coe]
  exact Iff.rfl

theorem sortCells_nodup (S : Finset Cell) : (sortCells S).Nodup := by
  rw [← Multiset.coe_nodup, sortCells_coe]
  exact S.nodup

theorem sortCells_length (S : Finset Cell) : (sortCells S).length = S.card := by
  rw [← Multiset.coe_card, sortCells_coe]
  rfl

theorem foldl_inter_subset (rest : List Sentence) :
    ∀ a : Finset Cell, rest.foldl (fun acc s2 => acc ∩ s2.cells) a ⊆ a := by
  induction rest with
  | nil => intro a; exact Finset.Subset.refl a
  | cons s2 rest ih =>
    intro a
    exact (ih (a ∩ s2.cells)).trans Finset.inter_subset_left

theorem allCellsInter_mem {ks : List Sentence} {c : Cell}
    (h : c ∈ allCellsInter ks) : ∃ s ∈ ks, c ∈ s.cells := by
  cases ks with
  | nil => exact absurd h (Finset.not_mem_empty c)
  | cons s rest =>
    exact ⟨s, List.mem_cons_self s rest, foldl_inter_subset rest s.cells h⟩

/-!
### Sentence-level facts
-/

theorem known_mines_subset (s : Sentence) : s.known_mines ⊆ s.cells := by
  unfold Sentence.known_mines
  split
  · exact Finset.Subset.refl _
  · exact Finset.empty_subset _

theorem known_safes_subset (s : Sentence) : s.known_safes ⊆ s.cells := by
  unfold Sentence.known_safes
  split
  · exact Finset.Subset.refl _
  · exact Finset.empty_subset _

theorem km_empty_or_ks_empty (s : Sentence) :
    s.known_mines = ∅ ∨ s.known_safes = ∅ := by
  by_cases h : s.count = 0
  · left
    simp [Sentence.known_mines, h]
  · right
    simp [Sentence.known_safes, h]

theorem mark_mine_cells_subset (s : Sentence) (c : Cell) :
    (s.mark_mine c).cells ⊆ s.cells := by
  unfold Sentence.mark_mine
  split
  · exact Finset.erase_subset _ _
  · exact Finset.Subset.refl _

theorem mark_safe_cells_subset (s : Sentence) (c : Cell) :
    (s.mark_safe c).cells ⊆ s.cells := by
  unfold Sentence.mark_safe
  split
  · exact Finset.erase_subset _ _
  · exact Finset.Subset.refl _

theorem mark_mine_cells_not_mem (s : Sentence) (c : Cell) :
    c ∉ (s.mark_mine c).cells := by
  unfold Sentence.mark_mine
  split
  · exact Finset.not_mem_erase c _
  · assumption

theorem mark_safe_cells_not_mem (s : Sentence) (c : Cell) :
    c ∉ (s.mark_safe c).cells := by
  unfold Sentence.mark_safe
  split
  · exact Finset.not_mem_erase c _
  · assumption

theorem infer_cells_subset {s1 s2 t : Sentence}
    (h : infer_from_sentences s1 s2 = some t) :
    t.cells ⊆ s1.cells ∪ s2.cells := by
  unfold infer_from_sentences at h
  split at h
  · cases h
    exact Finset.sdiff_subset.trans Finset.subset_union_right
  · split at h
    · cases h
      exact Finset.sdiff_subset.trans Finset.subset_union_left
    · cases h

/-!
### Preservation of cleanliness and disjointness

`Clean` (no classified cell inside any sentence) is preserved by every
operation with no side condition at all; `DisjointSM` needs, at each
marking site, that the marked cell is not already in the opposite set,
which `Clean` supplies.
-/

theorem mark_mine_clean {st : AIState} {c : Cell} (h : Clean st) :
    Clean (st.mark_mine c) := by
  intro s hs x hx
  obtain ⟨t, ht, rfl⟩ := List.mem_map.mp hs
  have hxt : x ∈ t.cells := mark_mine_cells_subset t c hx
  have hold := h t ht x hxt
  refine ⟨?_, hold.2⟩
  intro hmem
  rcases Finset.mem_insert.mp hmem with h1 | h1
  · exact mark_mine_cells_not_mem t c (h1 ▸ hx)
  · exact hold.1 h1

theorem mark_safe_clean {st : AIState} {c : Cell} (h : Clean st) :
    Clean (st.mark_safe c) := by
  intro s hs x hx
  obtain ⟨t, ht, rfl⟩ := List.mem_map.mp hs
  have hxt : x ∈ t.cells := mark_safe_cells_subset t c hx
  have hold := h t ht x hxt
  refine ⟨hold.1, ?_⟩
  intro hmem
  rcases Finset.mem_insert.mp hmem with h1 | h1
  · exact mark_safe_cells_not_mem t c (h1 ▸ hx)
  · exact hold.2 h1

theorem mark_mine_disjoint {st : AIState} {c : Cell} (h : DisjointSM st)
    (hc : c ∉ st.safes) : DisjointSM (st.mark_mine c) := by
  apply Finset.eq_empty_iff_forall_not_mem.mpr
  intro x hx
  rw [Finset.mem_inter] at hx
  rcases Finset.mem_insert.mp hx.2 with h1 | h1
  · exact hc (h1 ▸ hx.1)
  · exact Finset.eq_empty_iff_forall_not_mem.mp h x (Finset.mem_inter.mpr ⟨hx.1, h1⟩)

theorem mark_safe_disjoint {st : AIState} {c : Cell} (h : DisjointSM st)
    (hc : c ∉ st.mines) : DisjointSM (st.mark_safe c) := by
  apply Finset.eq_empty_iff_forall_not_mem.mpr
  intro x hx
  rw [Finset.mem_inter] at hx
  rcases Finset.mem_insert.mp hx.1 with h1 | h1
  · exact hc (h1 ▸ hx.2)
  · exact Finset.eq_empty_iff_forall_not_mem.mp h x (Finset.mem_inter.mpr ⟨h1, hx.2⟩)

theorem mark_new_mines_mines (st : AIState) (S : Finset Cell) :
    (st.mark_new_mines S).1.mines = st.mines ∪ (S \ st.mines) := rfl

theorem mark_new_mines_safes (st : AIState) (S : Finset Cell) :
    (st.mark_new_mines S).1.safes = st.safes := rfl

theorem mark_new_safes_safes (st : AIState) (S : Finset Cell) :
    (st.mark_new_safes S).1.safes = st.safes ∪ (S \ st.safes) := rfl

theorem mark_new_safes_mines (st : AIState) (S : Finset Cell) :
    (st.mark_new_safes S).1.mines = st.mines := rfl

theorem mark_new_mines_clean {st : AIState} {S : Finset Cell} (h : Clean st) :
    Clean (st.mark_new_mines S).1 := by
  intro s hs x hx
  obtain ⟨t, ht, rfl⟩ := List.mem_map.mp hs
  rw [Finset.mem_sdiff] at hx
  have hold := h t ht x hx.1
  refine ⟨?_, hold.2⟩
  rw [mark_new_mines_mines]
  intro hmem
  rcases Finset.mem_union.mp hmem with h1 | h1
  · exact hold.1 h1
  · exact hx.2 h1

theorem mark_new_safes_clean {st : AIState} {S : Finset Cell} (h : Clean st) :
    Clean (st.mark_new_safes S).1 := by
  intro s hs x hx
  obtain ⟨t, ht, rfl⟩ := List.mem_map.mp hs
  rw [Finset.mem_sdiff] at hx
  have hold := h t ht x hx.1
  refine ⟨hold.1, ?_⟩
  rw [mark_new_safes_safes]
  intro hmem
  rcases Finset.mem_union.mp hmem with h1 | h1
  · exact hold.2 h1
  · exact hx.2 h1

theorem mark_new_mines_disjoint {st : AIState} {S : Finset Cell}
    (h : DisjointSM st) (hS : ∀ c ∈ S, c ∉ st.safes) :
    DisjointSM (st.mark_new_mines S).1 := by
  apply Finset.eq_empty_iff_forall_not_mem.mpr
  intro x hx
  rw [Finset.mem_inter, mark_new_mines_safes, mark_new_mines_mines] at hx
  rcases Finset.mem_union.mp hx.2 with h1 | h1
  · exact Finset.eq_empty_iff_forall_not_mem.mp h x (Finset.mem_inter.mpr ⟨hx.1, h1⟩)
  · exact hS x (Finset.mem_sdiff.mp h1).1 hx.1

theorem mark_new_safes_disjoint {st : AIState} {S : Finset Cell}
    (h : DisjointSM st) (hS : ∀ c ∈ S, c ∉ st.mines) :
    DisjointSM (st.mark_new_safes S).1 := by
  apply Finset.eq_empty_iff_forall_not_mem.mpr
  intro x hx
  rw [Finset.mem_inter, mark_new_safes_safes, mark_new_safes_mines] at hx
  rcases Finset.mem_union.mp hx.1 with h1 | h1
  · exact Finset.eq_empty_iff_forall_not_mem.mp h x (Finset.mem_inter.mpr ⟨h1, hx.2⟩)
  · exact hS x (Finset.mem_sdiff.mp h1).1 hx.2

theorem step1Go_clean_disjoint (l : List ℕ) :
    ∀ (st : AIState) (ch : Bool), Clean st → DisjointSM st →
      Clean (step1Go l st ch).1 ∧ DisjointSM (step1Go l st ch).1 := by
  induction l with
  | nil => exact fun st ch h1 h2 => ⟨h1, h2⟩
  | cons i rest ih =>
    intro st ch h1 h2
    rw [step1Go]
    cases hg : st.knowledge[i]? with
    | none => exact ih st ch h1 h2
    | some s =>
      have hsmem : s ∈ st.knowledge := mem_of_getElem_opt hg
      have h1m : Clean (st.mark_new_mines s.known_mines).1 :=
        mark_new_mines_clean h1
      have h2m : DisjointSM (st.mark_new_mines s.known_mines).1 :=
        mark_new_mines_disjoint h2
          (fun c hc => (h1 s hsmem c (known_mines_subset s hc)).2)
      have hyp2 : ∀ c ∈ s.known_safes, c ∉ (st.mark_new_mines s.known_mines).1.mines := by
        intro c hc
        rw [mark_new_mines_mines]
        intro hmem
        rcases Finset.mem_union.mp hmem with hm | hm
        · exact (h1 s hsmem c (known_safes_subset s hc)).1 hm
        · rcases km_empty_or_ks_empty s with he | he
          · rw [he] at hm
            simp at hm
          · rw [he] at hc
            simp at hc
      exact ih _ _ (mark_new_safes_clean h1m) (mark_new_safes_disjoint h2m hyp2)

theorem step1_clean_disjoint {st : AIState} (h1 : Clean st) (h2 : DisjointSM st) :
    Clean (step1 st).1 ∧ DisjointSM (step1 st).1 :=
  step1Go_clean_disjoint _ st false h1 h2

theorem filterKnowledge_clean {st : AIState} (h : Clean st) :
    Clean (filterKnowledge st) := by
  intro s hs x hx
  exact h s (List.mem_filter.mp hs).1 x hx

theorem inferStep_pres (φ : Sentence → Prop)
    (hinf : ∀ s1 s2 t, φ s1 → φ s2 → infer_from_sentences s1 s2 = some t → φ t)
    {s1 s2 : Sentence} {acc : List Sentence × Bool}
    (hs1 : φ s1) (hs2 : φ s2) (hacc : ∀ s ∈ acc.1, φ s) :
    ∀ s ∈ (inferStep s1 acc s2).1, φ s := by
  unfold inferStep
  cases hi : infer_from_sentences s1 s2 with
  | none => exact hacc
  | some t =>
    dsimp only
    split
    · exact hacc
    · intro s hs
      rcases List.mem_append.mp hs with h | h
      · exact hacc s h
      · rw [List.mem_singleton.mp h]
        exact hinf s1 s2 t hs1 hs2 hi

theorem step3Inner_pres (φ : Sentence → Prop)
    (hinf : ∀ s1 s2 t, φ s1 → φ s2 → infer_from_sentences s1 s2 = some t → φ t)
    (s1 : Sentence) (hs1 : φ s1) :
    ∀ (slice : List Sentence) (acc : List Sentence × Bool),
      (∀ s ∈ slice, φ s) → (∀ s ∈ acc.1, φ s) →
      ∀ s ∈ (step3Inner s1 slice acc).1, φ s := by
  intro slice
  induction slice with
  | nil => exact fun acc _ hacc => hacc
  | cons s2 rest ih =>
    intro acc hsl hacc
    rw [step3Inner, List.foldl_cons]
    exact ih (inferStep s1 acc s2)
      (fun s hs => hsl s (List.mem_cons_of_mem s2 hs))
      (inferStep_pres φ hinf hs1 (hsl s2 (List.mem_cons_self s2 rest)) hacc)

theorem step3Go_pres (φ : Sentence → Prop)
    (hinf : ∀ s1 s2 t, φ s1 → φ s2 → infer_from_sentences s1 s2 = some t → φ t) :
    ∀ (fuel i : ℕ) (acc : List Sentence × Bool),
      (∀ s ∈ acc.1, φ s) → ∀ s ∈ (step3Go fuel i acc).1, φ s := by
  intro fuel
  induction fuel with
  | zero => exact fun i acc h => h
  | succ fuel ih =>
    intro i acc h
    rw [step3Go]
    cases hg : acc.1[i]? with
    | none => exact h
    | some s1 =>
      exact ih (i + 1) _
        (step3Inner_pres φ hinf s1 (h s1 (mem_of_getElem_opt hg)) _ _
          (fun s2 hs2 => h s2 (List.drop_subset _ _ hs2)) h)

theorem step3_knowledge (F : ℕ) (st : AIState) :
    (step3 F st).1.knowledge = (step3Go F 0 (st.knowledge, false)).1 := rfl

theorem step3_clean {F : ℕ} {st : AIState} (h : Clean st) :
    Clean (step3 F st).1 := by
  intro s hs x hx
  rw [step3_knowledge] at hs
  have := step3Go_pres (fun s => ∀ c ∈ s.cells, c ∉ st.mines ∧ c ∉ st.safes)
    (fun s1 s2 t h1 h2 hi c hc => by
      rcases Finset.mem_union.mp (infer_cells_subset hi hc) with hm | hm
      · exact h1 c hm
      · exact h2 c hm)
    F 0 (st.knowledge, false) h s hs
  exact this x hx

theorem step4Cell_clean {acc : AIState × Bool} {c : Cell} (h : Clean acc.1) :
    Clean (step4Cell acc c).1 := by
  unfold step4Cell
  dsimp only
  split
  · split
    · exact h
    · exact mark_mine_clean h
  · split
    · split
      · exact h
      · exact mark_safe_clean h
    · exact h

theorem step4Cell_disjoint {acc : AIState × Bool} {c : Cell}
    (h : DisjointSM acc.1) (hc : c ∉ acc.1.safes ∧ c ∉ acc.1.mines) :
    DisjointSM (step4Cell acc c).1 := by
  unfold step4Cell
  dsimp only
  split
  · split
    · exact h
    · exact mark_mine_disjoint h hc.1
  · split
    · split
      · exact h
      · exact mark_safe_disjoint h hc.2
    · exact h

theorem step4Cell_sets (acc : AIState × Bool) (c : Cell) :
    (step4Cell acc c).1.safes ⊆ insert c acc.1.safes ∧
    (step4Cell acc c).1.mines ⊆ insert c acc.1.mines := by
  unfold step4Cell
  dsimp only
  split
  · split
    · exact ⟨Finset.subset_insert _ _, Finset.subset_insert _ _⟩
    · exact ⟨Finset.subset_insert _ _, Finset.Subset.refl _⟩
  · split
    · split
      · exact ⟨Finset.subset_insert _ _, Finset.subset_insert _ _⟩
      · exact ⟨Finset.Subset.refl _, Finset.subset_insert _ _⟩
    · exact ⟨Finset.subset_insert _ _, Finset.subset_insert _ _⟩

theorem step4_fold_clean_disjoint (l : List Cell) :
    ∀ acc : AIState × Bool, Clean acc.1 → DisjointSM acc.1 → l.Nodup →
      (∀ c ∈ l, c ∉ acc.1.safes ∧ c ∉ acc.1.mines) →
      Clean (l.foldl step4Cell acc).1 ∧ DisjointSM (l.foldl step4Cell acc).1 := by
  induction l with
  | nil => exact fun acc h1 h2 _ _ => ⟨h1, h2⟩
  | cons c rest ih =>
    intro acc h1 h2 hnd hout
    rw [List.foldl_cons]
    have hc := hout c (List.mem_cons_self c rest)
    refine ih _ (step4Cell_clean h1) (step4Cell_disjoint h2 hc)
      (List.nodup_cons.mp hnd).2 ?_
    intro x hx
    have hxc : x ≠ c := fun he => (List.nodup_cons.mp hnd).1 (he ▸ hx)
    have hxo := hout x (List.mem_cons_of_mem c hx)
    have hsets := step4Cell_sets acc c
    constructor
    · intro hmem
      rcases Finset.mem_insert.mp (hsets.1 hmem) with h | h
      · exact hxc h
      · exact hxo.1 h
    · intro hmem
      rcases Finset.mem_insert.mp (hsets.2 hmem) with h | h
      · exact hxc h
      · exact hxo.2 h

theorem step4_clean_disjoint {st : AIState} (h1 : Clean st) (h2 : DisjointSM st) :
    Clean (step4 st).1 ∧ DisjointSM (step4 st).1 := by
  refine step4_fold_clean_disjoint _ (st, false) h1 h2 (sortCells_nodup _) ?_
  intro c hc
  obtain ⟨s, hs, hcs⟩ := allCellsInter_mem (mem_sortCells.mp hc)
  have h := h1 s hs c hcs
  exact ⟨h.2, h.1⟩

theorem bodyRound_clean_disjoint {F : ℕ} {st : AIState}
    (h1 : Clean st) (h2 : DisjointSM st) :
    Clean (bodyRound F st).1 ∧ DisjointSM (bodyRound F st).1 := by
  have p1 := step1_clean_disjoint h1 h2
  have p2 : Clean (filterKnowledge (step1 st).1) ∧
      DisjointSM (filterKnowledge (step1 st).1) :=
    ⟨filterKnowledge_clean p1.1, p1.2⟩
  have p3 : Clean (step3 F (filterKnowledge (step1 st).1)).1 ∧
      DisjointSM (step3 F (filterKnowledge (step1 st).1)).1 :=
    ⟨step3_clean p2.1, p2.2⟩
  exact step4_clean_disjoint p3.1 p3.2

theorem updateLoop_clean_disjoint (F : ℕ) : ∀ (n : ℕ) (st : AIState),
    Clean st → DisjointSM st →
    Clean (updateLoop F n st) ∧ DisjointSM (updateLoop F n st) := by
  intro n
  induction n with
  | zero => exact fun st h1 h2 => ⟨h1, h2⟩
  | succ n ih =>
    intro st h1 h2
    rw [updateLoop_succ]
    have hb := @bodyRound_clean_disjoint F st h1 h2
    split
    · exact ih _ hb.1 hb.2
    · exact hb

theorem addPre_clean_disjoint {st : AIState} {cell : Cell} {count : ℤ}
    (h1 : Clean st) (h2 : DisjointSM st) (hc : cell ∉ st.mines) :
    Clean (addPre st cell count) ∧ DisjointSM (addPre st cell count) := by
  have h1m : Clean ({ st with moves_made := insert cell st.moves_made} : AIState) := h1
  have h2m : DisjointSM ({ st with moves_made := insert cell st.moves_made} : AIState) := h2
  have h1s := @mark_safe_clean _ cell h1m
  have h2s := @mark_safe_disjoint _ cell h2m hc
  unfold addPre
  dsimp only
  split
  · constructor
    · intro s hs x hx
      rcases List.mem_append.mp hs with hm | hm
      · exact h1s s hm x hx
      · rw [List.mem_singleton.mp hm] at hx
        rw [Finset.mem_sdiff] at hx
        rw [Finset.mem_sdiff] at hx
        exact ⟨hx.2, hx.1.2⟩
    · exact h2s
  · exact ⟨h1s, h2s⟩

theorem add_knowledge_clean_disjoint {F : ℕ} {st : AIState} {cell : Cell} {count : ℤ}
    (h1 : Clean st) (h2 : DisjointSM st) (hc : cell ∉ st.mines) :
    Clean (add_knowledge F st cell count) ∧
    DisjointSM (add_knowledge F st cell count) := by
  have hp := @addPre_clean_disjoint st cell count h1 h2 hc
  exact updateLoop_clean_disjoint F 100 _ hp.1 hp.2

theorem init_clean (h w : ℕ) : Clean (initAI h w) :=
  fun s hs => absurd hs (List.not_mem_nil s)

theorem init_disjoint (h w : ℕ) : DisjointSM (initAI h w) :=
  Finset.empty_inter _

theorem step1Go_clean (l : List ℕ) :
    ∀ (st : AIState) (ch : Bool), Clean st → Clean (step1Go l st ch).1 := by
  induction l with
  | nil => exact fun st ch h => h
  | cons i rest ih =>
    intro st ch h
    rw [step1Go]
    cases hg : st.knowledge[i]? with
    | none => exact ih st ch h
    | some s => exact ih _ _ (mark_new_safes_clean (mark_new_mines_clean h))

theorem step4_fold_clean (l : List Cell) :
    ∀ acc : AIState × Bool, Clean acc.1 → Clean (l.foldl step4Cell acc).1 := by
  induction l with
  | nil => exact fun acc h => h
  | cons c rest ih =>
    intro acc h
    rw [List.foldl_cons]
    exact ih _ (step4Cell_clean h)

theorem bodyRound_clean {F : ℕ} {st : AIState} (h : Clean st) :
    Clean (bodyRound F st).1 :=
  step4_fold_clean _ _ (step3_clean (filterKnowledge_clean (step1Go_clean _ st false h)))

theorem updateLoop_clean (F : ℕ) : ∀ (n : ℕ) (st : AIState),
    Clean st → Clean (updateLoop F n st) := by
  intro n
  induction n with
  | zero => exact fun st h => h
  | succ n ih =>
    intro st h
    rw [updateLoop_succ]
    split
    · exact ih _ (bodyRound_clean h)
    · exact bodyRound_clean h

theorem addPre_clean {st : AIState} {cell : Cell} {count : ℤ} (h : Clean st) :
    Clean (addPre st cell count) := by
  have h1s := @mark_safe_clean _ cell
    (show Clean ({ st with moves_made := insert cell st.moves_made} : AIState) from h)
  unfold addPre
  dsimp only
  split
  · intro s hs x hx
    rcases List.mem_append.mp hs with hm | hm
    · exact h1s s hm x hx
    · rw [List.mem_singleton.mp hm] at hx
      rw [Finset.mem_sdiff] at hx
      rw [Finset.mem_sdiff] at hx
      exact ⟨hx.2, hx.1.2⟩
  · exact h1s

theorem add_knowledge_clean {F : ℕ} {st : AIState} {cell : Cell} {count : ℤ}
    (h : Clean st) : Clean (add_knowledge F st cell count) :=
  updateLoop_clean F 100 _ (addPre_clean h)

/-- C1 (amended): for observation sequences meeting the §4.2
preconditions strengthened by "the observed cell is not already
classified as a mine", the engine's `safes` and `mines` sets are
disjoint after every `add_knowledge` call (and in the initial state). -/
theorem C1_amended_disjoint :
    ∀ (F : ℕ) (st : AIState),
      ReachableW (fun st c _ => c ∉ st.mines) F st →
      st.safes ∩ st.mines = ∅ := by
  intro F st h
  suffices hcd : Clean st ∧ DisjointSM st from hcd.2
  induction h with
  | init h w => exact ⟨init_clean h w, init_disjoint h w⟩
  | step hr hp ih => exact add_knowledge_clean_disjoint ih.1 ih.2 hp

/-- Witness for C1 at a concrete reachable state. -/
theorem C1_witness : stA.safes ∩ stA.mines = ∅ :=
  C1_amended_disjoint 100 stA
    (ReachableW.step (ReachableW.init 2 2) (by decide))

/-- C7: (a) in every state reachable by any observation sequence, no
cell of `safes` or `mines` occurs in any sentence of the knowledge
collection (so in particular after every settle of the derivation
loop); (b) removing a cell from a sentence as a known mine decrements
its count by exactly 1, and removing it as known safe leaves the count
unchanged. -/
theorem C7_classified_projected_out :
    (∀ (F : ℕ) (st : AIState), ReachableW (fun _ _ _ => True) F st →
      ∀ s ∈ st.knowledge, ∀ c ∈ s.cells, c ∉ st.safes ∧ c ∉ st.mines) ∧
    (∀ (s : Sentence) (c : Cell), c ∈ s.cells →
      (s.mark_mine c).cells = s.cells.erase c ∧
      (s.mark_mine c).count = s.count - 1 ∧
      (s.mark_safe c).cells = s.cells.erase c ∧
      (s.mark_safe c).count = s.count) := by
  constructor
  · intro F st h
    suffices hc : Clean st by
      intro s hs c hcs
      exact ⟨(hc s hs c hcs).2, (hc s hs c hcs).1⟩
    induction h with
    | init h w => exact init_clean h w
    | step hr hp ih => exact add_knowledge_clean ih
  · intro s c hc
    unfold Sentence.mark_mine Sentence.mark_safe
    rw [if_pos hc, if_pos hc]
    exact ⟨rfl, rfl, rfl, rfl⟩

/-- Witness for C7 at a concrete reachable state and sentence. -/
theorem C7_witness :
    (((0 : ℤ), (1 : ℤ)) ∉ stA.safes ∧ ((0 : ℤ), (1 : ℤ)) ∉ stA.mines) ∧
    ((⟨{((0 : ℤ), (1 : ℤ))}, 1⟩ : Sentence).mark_mine ((0 : ℤ), (1 : ℤ))).count = 0 := by
  constructor
  · have hmem : (⟨{((0 : ℤ), (1 : ℤ)), ((1 : ℤ), (0 : ℤ)), ((1 : ℤ), (1 : ℤ))}, 1⟩ :
        Sentence) ∈ stA.knowledge := by
      rw [stA_eq]
      exact List.mem_cons_self _ _
    exact C7_classified_projected_out.1 100 stA
      (ReachableW.step (ReachableW.init 2 2) trivial) _ hmem _ (by decide)
  · have h := C7_classified_projected_out.2 ⟨{((0 : ℤ), (1 : ℤ))}, 1⟩
      ((0 : ℤ), (1 : ℤ)) (by decide)
    rw [h.2.1]
    decide

/-!
### Counting true mines

Facts about `trueCount` used to show that every operation keeps every
sentence exactly true for the ground-truth assignment.
-/

theorem trueCount_nonneg (M : Cell → Bool) (s : Finset Cell) :
    0 ≤ trueCount M s :=
  Int.natCast_nonneg _

theorem trueCount_le_card (M : Cell → Bool) (s : Finset Cell) :
    trueCount M s ≤ (s.card : ℤ) :=
  Int.ofNat_le.mpr (Finset.card_filter_le s _)

theorem filter_sdiff_mine (M : Cell → Bool) (s D : Finset Cell) :
    (s \ D).filter (fun c => M c = true) = (s.filter (fun c => M c = true)) \ D := by
  ext x
  simp only [Finset.mem_filter, Finset.mem_sdiff]
  tauto

theorem trueCount_sdiff_of_mines {M : Cell → Bool} {D : Finset Cell}
    (hD : ∀ c ∈ D, M c = true) (s : Finset Cell) :
    trueCount M (s \ D) = trueCount M s - ((s ∩ D).card : ℤ) := by
  unfold trueCount
  rw [filter_sdiff_mine]
  have hinter : s.filter (fun c => M c = true) ∩ D = s ∩ D := by
    ext x
    simp only [Finset.mem_inter, Finset.mem_filter]
    exact ⟨fun h => ⟨h.1.1, h.2⟩, fun h => ⟨⟨h.1, hD x h.2⟩, h.2⟩⟩
  have hcard := Finset.card_sdiff_add_card_inter (s.filter (fun c => M c = true)) D
  rw [hinter] at hcard
  omega

theorem trueCount_sdiff_of_safes {M : Cell → Bool} {D : Finset Cell}
    (hD : ∀ c ∈ D, M c = false) (s : Finset Cell) :
    trueCount M (s \ D) = trueCount M s := by
  unfold trueCount
  rw [filter_sdiff_mine]
  congr 2
  apply Finset.sdiff_eq_self_of_disjoint
  rw [Finset.disjoint_left]
  intro x hx hxD
  exact absurd ((Finset.mem_filter.mp hx).2.symm.trans (hD x hxD)) (by decide)

theorem trueCount_erase_of_mine {M : Cell → Bool} {c : Cell} {s : Finset Cell}
    (hm : M c = true) (hc : c ∈ s) :
    trueCount M (s.erase c) = trueCount M s - 1 := by
  unfold trueCount
  rw [Finset.erase_eq, filter_sdiff_mine, ← Finset.erase_eq]
  have hmem : c ∈ s.filter (fun x => M x = true) := Finset.mem_filter.mpr ⟨hc, hm⟩
  rw [Finset.card_erase_of_mem hmem]
  have := Finset.card_pos.mpr ⟨c, hmem⟩
  omega

theorem trueCount_erase_of_safe {M : Cell → Bool} {c : Cell} {s : Finset Cell}
    (hm : M c = false) :
    trueCount M (s.erase c) = trueCount M s := by
  unfold trueCount
  rw [Finset.erase_eq, filter_sdiff_mine, ← Finset.erase_eq]
  congr 2
  apply Finset.erase_eq_of_not_mem
  intro hmem
  exact absurd ((Finset.mem_filter.mp hmem).2.symm.trans hm) (by decide)

theorem trueCount_sdiff_of_subset {M : Cell → Bool} {A B : Finset Cell}
    (h : A ⊆ B) :
    trueCount M (B \ A) = trueCount M B - trueCount M A := by
  unfold trueCount
  have hfe : (B \ A).filter (fun c => M c = true) =
      B.filter (fun c => M c = true) \ A.filter (fun c => M c = true) := by
    ext x
    simp only [Finset.mem_filter, Finset.mem_sdiff]
    tauto
  rw [hfe, Finset.card_sdiff (Finset.filter_subset_filter _ h)]
  have := Finset.card_le_card (Finset.filter_subset_filter (fun c => M c = true) h)
  omega

/-- When a sentence is exactly true and its `known_mines` trigger fires,
every cell of the sentence really is a mine. -/
theorem known_mines_true {M : Cell → Bool} {s : Sentence}
    (ht : s.count = trueCount M s.cells) :
    ∀ c ∈ s.known_mines, M c = true := by
  intro c hc
  unfold Sentence.known_mines at hc
  split at hc
  case isTrue h =>
    have hcards : (s.cells.filter (fun c => M c = true)).card = s.cells.card := by
      have : ((s.cells.filter (fun c => M c = true)).card : ℤ) = (s.cells.card : ℤ) := by
        unfold trueCount at ht
        omega
      exact_mod_cast this
    have hfull : s.cells.filter (fun c => M c = true) = s.cells :=
      Finset.eq_of_subset_of_card_le (Finset.filter_subset _ _) (le_of_eq hcards.symm)
    rw [← hfull] at hc
    exact (Finset.mem_filter.mp hc).2
  case isFalse h => exact absurd hc (Finset.not_mem_empty c)

/-- When a sentence is exactly true and its `known_safes` trigger fires,
every cell of the sentence really is safe. -/
theorem known_safes_true {M : Cell → Bool} {s : Sentence}
    (ht : s.count = trueCount M s.cells) :
    ∀ c ∈ s.known_safes, M c = false := by
  intro c hc
  unfold Sentence.known_safes at hc
  split at hc
  case isTrue h =>
    have hcard : (s.cells.filter (fun c => M c = true)).card = 0 := by
      unfold trueCount at ht
      omega
    have hemp := Finset.card_eq_zero.mp hcard
    cases hmc : M c with
    | false => rfl
    | true =>
      have : c ∈ s.cells.filter (fun c => M c = true) :=
        Finset.mem_filter.mpr ⟨hc, hmc⟩
      rw [hemp] at this
      exact absurd this (Finset.not_mem_empty c)
  case isFalse h => exact absurd hc (Finset.not_mem_empty c)

/-- Subset elimination is logically sound: an inferred sentence is
exactly true whenever its two premises are. -/
theorem infer_sound {M : Cell → Bool} {s1 s2 t : Sentence}
    (h1 : s1.count = trueCount M s1.cells) (h2 : s2.count = trueCount M s2.cells)
    (hi : infer_from_sentences s1 s2 = some t) :
    t.count = trueCount M t.cells := by
  unfold infer_from_sentences at hi
  split at hi
  case isTrue h =>
    cases hi
    show s2.count - s1.count = trueCount M (s2.cells \ s1.cells)
    rw [trueCount_sdiff_of_subset h, h1, h2]
  case isFalse h =>
    split at hi
    case isTrue h' =>
      cases hi
      show s1.count - s2.count = trueCount M (s1.cells \ s2.cells)
      rw [trueCount_sdiff_of_subset h', h1, h2]
    case isFalse h' => cases hi

/-!
### Preservation of soundness by every operation
-/

theorem true_of_count_eq_card {M : Cell → Bool} {s : Sentence}
    (ht : s.count = trueCount M s.cells) (hc : s.count = (s.cells.card : ℤ))
    {c : Cell} (hmem : c ∈ s.cells) : M c = true := by
  have hcards : (s.cells.filter (fun x => M x = true)).card = s.cells.card := by
    have : ((s.cells.filter (fun x => M x = true)).card : ℤ) = (s.cells.card : ℤ) := by
      unfold trueCount at ht
      omega
    exact_mod_cast this
  have hfull : s.cells.filter (fun x => M x = true) = s.cells :=
    Finset.eq_of_subset_of_card_le (Finset.filter_subset _ _) (le_of_eq hcards.symm)
  rw [← hfull] at hmem
  exact (Finset.mem_filter.mp hmem).2

theorem false_of_count_eq_zero {M : Cell → Bool} {s : Sentence}
    (ht : s.count = trueCount M s.cells) (hc : s.count = 0)
    {c : Cell} (hmem : c ∈ s.cells) : M c = false := by
  have hcard : (s.cells.filter (fun x => M x = true)).card = 0 := by
    unfold trueCount at ht
    omega
  have hemp := Finset.card_eq_zero.mp hcard
  cases hmc : M c with
  | false => rfl
  | true =>
    have : c ∈ s.cells.filter (fun x => M x = true) := Finset.mem_filter.mpr ⟨hmem, hmc⟩
    rw [hemp] at this
    exact absurd this (Finset.not_mem_empty c)

theorem mark_mine_sound {M : Cell → Bool} {st : AIState} {c : Cell}
    (h : Sound M st) (hc : M c = true) : Sound M (st.mark_mine c) := by
  refine ⟨?_, h.2.1, ?_⟩
  · intro x hx
    rcases Finset.mem_insert.mp hx with h1 | h1
    · exact h1 ▸ hc
    · exact h.1 x h1
  · intro s hs
    obtain ⟨t, ht, rfl⟩ := List.mem_map.mp hs
    have htt := h.2.2 t ht
    unfold Sentence.mark_mine
    split
    case isTrue hmem =>
      show t.count - 1 = trueCount M (t.cells.erase c)
      rw [trueCount_erase_of_mine hc hmem, htt]
    case isFalse hmem => exact htt

theorem mark_safe_sound {M : Cell → Bool} {st : AIState} {c : Cell}
    (h : Sound M st) (hc : M c = false) : Sound M (st.mark_safe c) := by
  refine ⟨h.1, ?_, ?_⟩
  · intro x hx
    rcases Finset.mem_insert.mp hx with h1 | h1
    · exact h1 ▸ hc
    · exact h.2.1 x h1
  · intro s hs
    obtain ⟨t, ht, rfl⟩ := List.mem_map.mp hs
    have htt := h.2.2 t ht
    unfold Sentence.mark_safe
    split
    case isTrue hmem =>
      show t.count = trueCount M (t.cells.erase c)
      rw [trueCount_erase_of_safe hc, htt]
    case isFalse hmem => exact htt

theorem mark_new_mines_sound {M : Cell → Bool} {st : AIState} {S : Finset Cell}
    (h : Sound M st) (hS : ∀ c ∈ S, M c = true) :
    Sound M (st.mark_new_mines S).1 := by
  have hD : ∀ c ∈ S \ st.mines, M c = true :=
    fun c hc => hS c (Finset.mem_sdiff.mp hc).1
  refine ⟨?_, h.2.1, ?_⟩
  · intro x hx
    rw [mark_new_mines_mines] at hx
    rcases Finset.mem_union.mp hx with h1 | h1
    · exact h.1 x h1
    · exact hD x h1
  · intro s hs
    obtain ⟨t, ht, rfl⟩ := List.mem_map.mp hs
    have htt := h.2.2 t ht
    show t.count - ((t.cells ∩ (S \ st.mines)).card : ℤ) =
      trueCount M (t.cells \ (S \ st.mines))
    rw [trueCount_sdiff_of_mines hD, htt]

theorem mark_new_safes_sound {M : Cell → Bool} {st : AIState} {S : Finset Cell}
    (h : Sound M st) (hS : ∀ c ∈ S, M c = false) :
    Sound M (st.mark_new_safes S).1 := by
  have hD : ∀ c ∈ S \ st.safes, M c = false :=
    fun c hc => hS c (Finset.mem_sdiff.mp hc).1
  refine ⟨h.1, ?_, ?_⟩
  · intro x hx
    rw [mark_new_safes_safes] at hx
    rcases Finset.mem_union.mp hx with h1 | h1
    · exact h.2.1 x h1
    · exact hD x h1
  · intro s hs
    obtain ⟨t, ht, rfl⟩ := List.mem_map.mp hs
    have htt := h.2.2 t ht
    show t.count = trueCount M (t.cells \ (S \ st.safes))
    rw [trueCount_sdiff_of_safes hD, htt]

theorem step1Go_sound {M : Cell → Bool} (l : List ℕ) :
    ∀ (st : AIState) (ch : Bool), Sound M st → Sound M (step1Go l st ch).1 := by
  induction l with
  | nil => exact fun st ch h => h
  | cons i rest ih =>
    intro st ch h
    rw [step1Go]
    cases hg : st.knowledge[i]? with
    | none => exact ih st ch h
    | some s =>
      have htt := h.2.2 s (mem_of_getElem_opt hg)
      exact ih _ _ (mark_new_safes_sound (mark_new_mines_sound h (known_mines_true htt))
        (known_safes_true htt))

theorem filterKnowledge_sound {M : Cell → Bool} {st : AIState} (h : Sound M st) :
    Sound M (filterKnowledge st) :=
  ⟨h.1, h.2.1, fun s hs => h.2.2 s (List.mem_filter.mp hs).1⟩

theorem step3_sound {M : Cell → Bool} {F : ℕ} {st : AIState} (h : Sound M st) :
    Sound M (step3 F st).1 := by
  refine ⟨h.1, h.2.1, ?_⟩
  intro s hs
  rw [step3_knowledge] at hs
  exact step3Go_pres (fun s => s.count = trueCount M s.cells)
    (fun s1 s2 t h1 h2 hi => infer_sound h1 h2 hi)
    F 0 (st.knowledge, false) h.2.2 s hs

theorem step4Cell_knowledge_mem {acc : AIState × Bool} {c x : Cell}
    (hx : ∀ s ∈ acc.1.knowledge, x ∈ s.cells) (hxc : x ≠ c) :
    ∀ s ∈ (step4Cell acc c).1.knowledge, x ∈ s.cells := by
  have hmine : ∀ s ∈ (acc.1.mark_mine c).knowledge, x ∈ s.cells := by
    intro s hs
    obtain ⟨t, ht, rfl⟩ := List.mem_map.mp hs
    unfold Sentence.mark_mine
    split
    · exact Finset.mem_erase.mpr ⟨hxc, hx t ht⟩
    · exact hx t ht
  have hsafe : ∀ s ∈ (acc.1.mark_safe c).knowledge, x ∈ s.cells := by
    intro s hs
    obtain ⟨t, ht, rfl⟩ := List.mem_map.mp hs
    unfold Sentence.mark_safe
    split
    · exact Finset.mem_erase.mpr ⟨hxc, hx t ht⟩
    · exact hx t ht
  unfold step4Cell
  dsimp only
  split
  · split
    · exact hx
    · exact hmine
  · split
    · split
      · exact hx
      · exact hsafe
    · exact hx

theorem step4Cell_knowledge_ne {acc : AIState × Bool} {c : Cell}
    (h : acc.1.knowledge ≠ []) : (step4Cell acc c).1.knowledge ≠ [] := by
  unfold step4Cell
  dsimp only
  split
  · split
    · exact h
    · exact fun he => h (List.map_eq_nil_iff.mp he)
  · split
    · split
      · exact h
      · exact fun he => h (List.map_eq_nil_iff.mp he)
    · exact h

theorem step4Cell_sound {M : Cell → Bool} {acc : AIState × Bool} {c : Cell}
    (h : Sound M acc.1) (hne : acc.1.knowledge ≠ [])
    (hall : ∀ s ∈ acc.1.knowledge, c ∈ s.cells) :
    Sound M (step4Cell acc c).1 := by
  obtain ⟨s0, hs0⟩ : ∃ s, s ∈ acc.1.knowledge := by
    cases hk : acc.1.knowledge with
    | nil => exact absurd hk hne
    | cons a l => exact ⟨a, hk ▸ List.mem_cons_self a l⟩
  have hc0 : c ∈ s0.cells := hall s0 hs0
  have hs0f : s0 ∈ acc.1.knowledge.filter (fun s => decide (c ∈ s.cells)) :=
    List.mem_filter.mpr ⟨hs0, by simpa using hc0⟩
  have ht0 := h.2.2 s0 hs0
  unfold step4Cell
  dsimp only
  split
  case isTrue hguard =>
    split
    · exact h
    · have hcnt : s0.count = (s0.cells.card : ℤ) := by
        simpa using List.all_eq_true.mp hguard s0 hs0f
      exact mark_mine_sound h (true_of_count_eq_card ht0 hcnt hc0)
  case isFalse hguard =>
    split
    case isTrue hguard2 =>
      split
      · exact h
      · have hcnt : s0.count = 0 := by
          simpa using List.all_eq_true.mp hguard2 s0 hs0f
        exact mark_safe_sound h (false_of_count_eq_zero ht0 hcnt hc0)
    case isFalse hguard2 => exact h

theorem step4_fold_sound {M : Cell → Bool} (l : List Cell) :
    ∀ acc : AIState × Bool, Sound M acc.1 → l.Nodup →
      acc.1.knowledge ≠ [] → (∀ c ∈ l, ∀ s ∈ acc.1.knowledge, c ∈ s.cells) →
      Sound M (l.foldl step4Cell acc).1 := by
  induction l with
  | nil => exact fun acc h _ _ _ => h
  | cons c rest ih =>
    intro acc h hnd hne hall
    rw [List.foldl_cons]
    refine ih _ (step4Cell_sound h hne (hall c (List.mem_cons_self c rest)))
      (List.nodup_cons.mp hnd).2 (step4Cell_knowledge_ne hne) ?_
    intro x hx
    have hxc : x ≠ c := fun he => (List.nodup_cons.mp hnd).1 (he ▸ hx)
    exact step4Cell_knowledge_mem (hall x (List.mem_cons_of_mem c hx)) hxc

theorem foldl_inter_mem {c : Cell} (rest : List Sentence) :
    ∀ a : Finset Cell, c ∈ rest.foldl (fun acc s2 => acc ∩ s2.cells) a →
      c ∈ a ∧ ∀ s2 ∈ rest, c ∈ s2.cells := by
  induction rest with
  | nil => exact fun a h => ⟨h, fun s2 hs2 => absurd hs2 (List.not_mem_nil s2)⟩
  | cons s2 rest ih =>
    intro a h
    obtain ⟨hin, hrest⟩ := ih (a ∩ s2.cells) h
    rw [Finset.mem_inter] at hin
    refine ⟨hin.1, ?_⟩
    intro s3 hs3
    rcases List.mem_cons.mp hs3 with h3 | h3
    · exact h3 ▸ hin.2
    · exact hrest s3 h3

theorem allCellsInter_mem_all {ks : List Sentence} {c : Cell}
    (h : c ∈ allCellsInter ks) : ∀ s ∈ ks, c ∈ s.cells := by
  cases ks with
  | nil => exact absurd h (Finset.not_mem_empty c)
  | cons s rest =>
    intro s2 hs2
    obtain ⟨hin, hrest⟩ := foldl_inter_mem rest s.cells h
    rcases List.mem_cons.mp hs2 with h3 | h3
    · exact h3 ▸ hin
    · exact hrest s2 h3

theorem step4_sound {M : Cell → Bool} {st : AIState} (h : Sound M st) :
    Sound M (step4 st).1 := by
  by_cases hk : st.knowledge = []
  · unfold step4
    rw [hk]
    exact h
  · exact step4_fold_sound _ (st, false) h (sortCells_nodup _) hk
      (fun c hc => allCellsInter_mem_all (mem_sortCells.mp hc))

theorem bodyRound_sound {M : Cell → Bool} {F : ℕ} {st : AIState}
    (h : Sound M st) : Sound M (bodyRound F st).1 :=
  step4_sound (step3_sound (filterKnowledge_sound (step1Go_sound _ st false h)))

theorem updateLoop_sound {M : Cell → Bool} (F : ℕ) : ∀ (n : ℕ) (st : AIState),
    Sound M st → Sound M (updateLoop F n st) := by
  intro n
  induction n with
  | zero => exact fun st h => h
  | succ n ih =>
    intro st h
    rw [updateLoop_succ]
    split
    · exact ih _ (bodyRound_sound h)
    · exact bodyRound_sound h

theorem newSentence_true {M : Cell → Bool} {m f nbs : Finset Cell} {count : ℤ}
    (hm : ∀ c ∈ m, M c = true) (hf : ∀ c ∈ f, M c = false)
    (hcnt : count = trueCount M nbs) :
    count - ((nbs ∩ m).card : ℤ) = trueCount M ((nbs \ f) \ m) := by
  have e1 := trueCount_sdiff_of_mines hm (nbs \ f)
  have e2 := trueCount_sdiff_of_safes hf nbs
  have e3 : (nbs \ f) ∩ m = nbs ∩ m := by
    ext x
    simp only [Finset.mem_inter, Finset.mem_sdiff]
    constructor
    · rintro ⟨⟨hx1, _⟩, hx2⟩
      exact ⟨hx1, hx2⟩
    · rintro ⟨hx1, hx2⟩
      refine ⟨⟨hx1, fun hxf => ?_⟩, hx2⟩
      exact absurd ((hm x hx2).symm.trans (hf x hxf)) (by decide)
  rw [e1, e3, e2, hcnt]

theorem addPre_sound {M : Cell → Bool} {st : AIState} {cell : Cell} {count : ℤ}
    (h : Sound M st) (hobs : WFObs M st cell count) :
    Sound M (addPre st cell count) := by
  have h2 : Sound M
      (({ st with moves_made := insert cell st.moves_made} : AIState).mark_safe cell) :=
    mark_safe_sound h hobs.1
  unfold addPre
  dsimp only
  split
  case isTrue hpos =>
    refine ⟨h2.1, h2.2.1, ?_⟩
    intro s hs
    rcases List.mem_append.mp hs with hm | hm
    · exact h2.2.2 s hm
    · rw [List.mem_singleton.mp hm]
      exact newSentence_true h2.1 h2.2.1 hobs.2
  case isFalse hpos => exact h2

theorem init_sound (M : Cell → Bool) (h w : ℕ) : Sound M (initAI h w) :=
  ⟨fun c hc => absurd hc (Finset.not_mem_empty c),
   fun c hc => absurd hc (Finset.not_mem_empty c),
   fun s hs => absurd hs (List.not_mem_nil s)⟩

theorem add_knowledge_sound {M : Cell → Bool} {F : ℕ} {st : AIState}
    {cell : Cell} {count : ℤ} (h : Sound M st) (hobs : WFObs M st cell count) :
    Sound M (add_knowledge F st cell count) :=
  updateLoop_sound F 100 _ (addPre_sound h hobs)

theorem reachable_sound {M : Cell → Bool} {F : ℕ} {st : AIState}
    (h : ReachableW (WFObs M) F st) : Sound M st := by
  induction h with
  | init h w => exact init_sound M h w
  | step hr hp ih => exact add_knowledge_sound ih hp

/-!
### The no-change round is a fixed point

A round that reports `changes_made = false` leaves the state it returns
a fixed point of the round body, which gives both the idempotence of
`update_knowledge` after a settle and the absence of empty sentences in
the returned collection.
-/

theorem mark_new_mines_of_subset {st : AIState} {S : Finset Cell}
    (h : S ⊆ st.mines) : st.mark_new_mines S = (st, false) := by
  have hD : S \ st.mines = ∅ := Finset.sdiff_eq_empty_iff_subset.mpr h
  have hmap : (st.knowledge.map (fun s =>
      (⟨s.cells \ ∅, s.count - ((s.cells ∩ ∅).card : ℤ)⟩ : Sentence))) = st.knowledge := by
    have hf : ∀ s : Sentence,
        (⟨s.cells \ ∅, s.count - ((s.cells ∩ ∅).card : ℤ)⟩ : Sentence) = s := by
      intro s
      simp [Finset.sdiff_empty, Finset.inter_empty]
    simp only [hf, List.map_id_fun']
    rfl
  unfold AIState.mark_new_mines
  dsimp only
  rw [hD]
  congr 1
  rw [Finset.union_empty, hmap]

theorem mark_new_safes_of_subset {st : AIState} {S : Finset Cell}
    (h : S ⊆ st.safes) : st.mark_new_safes S = (st, false) := by
  have hD : S \ st.safes = ∅ := Finset.sdiff_eq_empty_iff_subset.mpr h
  have hmap : (st.knowledge.map (fun s =>
      (⟨s.cells \ ∅, s.count⟩ : Sentence))) = st.knowledge := by
    have hf : ∀ s : Sentence, (⟨s.cells \ ∅, s.count⟩ : Sentence) = s := by
      intro s
      simp [Finset.sdiff_empty]
    simp only [hf, List.map_id_fun']
    rfl
  unfold AIState.mark_new_safes
  dsimp only
  rw [hD]
  congr 1
  rw [Finset.union_empty, hmap]

theorem step1Go_quiet {st : AIState} (hq : Step1Quiet st) :
    ∀ (l : List ℕ) (ch : Bool), step1Go l st ch = (st, ch) := by
  intro l
  induction l with
  | nil => exact fun ch => rfl
  | cons i rest ih =>
    intro ch
    rw [step1Go]
    cases hg : st.knowledge[i]? with
    | none => exact ih ch
    | some s =>
      have hs := hq s (mem_of_getElem_opt hg)
      dsimp only
      rw [mark_new_mines_of_subset hs.1]
      dsimp only
      rw [mark_new_safes_of_subset hs.2]
      dsimp only
      rw [Bool.or_false, Bool.or_false]
      exact ih ch

theorem step1Go_false :
    ∀ (l : List ℕ) (st : AIState) (ch : Bool) (st' : AIState),
      step1Go l st ch = (st', false) →
      st' = st ∧ ch = false ∧
        ∀ i ∈ l, ∀ s : Sentence, st.knowledge[i]? = some s →
          s.known_mines ⊆ st.mines ∧ s.known_safes ⊆ st.safes := by
  intro l
  induction l with
  | nil =>
    intro st ch st' h
    have h1 := congrArg Prod.fst h
    have h2 := congrArg Prod.snd h
    exact ⟨h1.symm, h2, fun i hi => absurd hi (List.not_mem_nil i)⟩
  | cons i rest ih =>
    intro st ch st' h
    rw [step1Go] at h
    cases hg : st.knowledge[i]? with
    | none =>
      rw [hg] at h
      obtain ⟨he, hc, hrest⟩ := ih st ch st' h
      refine ⟨he, hc, ?_⟩
      intro j hj s hs
      rcases List.mem_cons.mp hj with hj | hj
      · rw [hj, hg] at hs
        cases hs
      · exact hrest j hj s hs
    | some s =>
      rw [hg] at h
      dsimp only at h
      obtain ⟨he, hc, hrest⟩ :=
        ih _ _ st' h
      obtain ⟨hc1, hc2⟩ := Bool.or_eq_false_iff.mp hc
      obtain ⟨hc1a, hc1b⟩ := Bool.or_eq_false_iff.mp hc1
      -- the mine batch made no change
      have hkm : s.known_mines ⊆ st.mines := by
        by_contra hcon
        have hne : s.known_mines \ st.mines ≠ ∅ :=
          fun hemp => hcon (Finset.sdiff_eq_empty_iff_subset.mp hemp)
        have : (st.mark_new_mines s.known_mines).2 = true := by
          unfold AIState.mark_new_mines
          dsimp only
          exact decide_eq_true hne
        rw [this] at hc1b
        cases hc1b
      have hm1 : st.mark_new_mines s.known_mines = (st, false) :=
        mark_new_mines_of_subset hkm
      rw [hm1] at he hc2 hrest
      dsimp only at he hc2 hrest
      have hks : s.known_safes ⊆ st.safes := by
        by_contra hcon
        have hne : s.known_safes \ st.safes ≠ ∅ :=
          fun hemp => hcon (Finset.sdiff_eq_empty_iff_subset.mp hemp)
        have : (st.mark_new_safes s.known_safes).2 = true := by
          unfold AIState.mark_new_safes
          dsimp only
          exact decide_eq_true hne
        rw [this] at hc2
        cases hc2
      have hm2 : st.mark_new_safes s.known_safes = (st, false) :=
        mark_new_safes_of_subset hks
      rw [hm2] at he hrest
      dsimp only at he hrest
      refine ⟨he, hc1a, ?_⟩
      intro j hj t ht
      rcases List.mem_cons.mp hj with hj | hj
      · rw [hj, hg] at ht
        cases ht
        exact ⟨hkm, hks⟩
      · exact hrest j hj t ht

theorem step1_false {st st' : AIState} (h : step1 st = (st', false)) :
    st' = st ∧ Step1Quiet st := by
  obtain ⟨he, _, hall⟩ := step1Go_false _ st false st' h
  refine ⟨he, ?_⟩
  intro s hs
  obtain ⟨i, hilt, hie⟩ := List.mem_iff_getElem.mp hs
  refine hall i (List.mem_range.mpr hilt) s ?_
  rw [List.getElem?_eq_getElem hilt, hie]

theorem step1_of_quiet {st : AIState} (hq : Step1Quiet st) :
    step1 st = (st, false) :=
  step1Go_quiet hq _ false

theorem inferStep_false {s1 s2 : Sentence} {acc : List Sentence × Bool}
    (h : (inferStep s1 acc s2).2 = false) :
    inferStep s1 acc s2 = acc ∧ acc.2 = false := by
  unfold inferStep at h ⊢
  revert h
  cases hi : infer_from_sentences s1 s2 with
  | none =>
    intro h
    dsimp only at h ⊢
    exact ⟨rfl, h⟩
  | some t =>
    intro h
    dsimp only at h ⊢
    by_cases ht : t ∈ acc.1
    · rw [if_pos ht] at h ⊢
      exact ⟨rfl, h⟩
    · rw [if_neg ht] at h
      cases h

theorem step3Inner_false :
    ∀ (slice : List Sentence) (s1 : Sentence) (acc : List Sentence × Bool),
      (step3Inner s1 slice acc).2 = false →
      step3Inner s1 slice acc = acc ∧ acc.2 = false := by
  intro slice
  induction slice with
  | nil => exact fun s1 acc h => ⟨rfl, h⟩
  | cons s2 rest ih =>
    intro s1 acc h
    rw [step3Inner, List.foldl_cons] at h ⊢
    obtain ⟨he, hflag⟩ := ih s1 (inferStep s1 acc s2) h
    obtain ⟨he2, hflag2⟩ := inferStep_false hflag
    rw [show step3Inner s1 rest (inferStep s1 acc s2) =
        rest.foldl (inferStep s1) (inferStep s1 acc s2) from rfl] at he
    rw [he, he2]
    exact ⟨rfl, hflag2⟩

theorem step3Go_false :
    ∀ (fuel i : ℕ) (acc : List Sentence × Bool),
      (step3Go fuel i acc).2 = false →
      step3Go fuel i acc = acc ∧ acc.2 = false := by
  intro fuel
  induction fuel with
  | zero => exact fun i acc h => ⟨rfl, h⟩
  | succ fuel ih =>
    intro i acc h
    rw [step3Go] at h ⊢
    revert h
    cases hg : acc.1[i]? with
    | none =>
      intro h
      dsimp only at h ⊢
      exact ⟨rfl, h⟩
    | some s1 =>
      intro h
      dsimp only at h ⊢
      obtain ⟨he, hflag⟩ := ih (i + 1) _ h
      obtain ⟨he2, hflag2⟩ := step3Inner_false _ s1 acc hflag
      rw [he, he2]
      exact ⟨rfl, hflag2⟩

theorem step3_false {F : ℕ} {st : AIState} (h : (step3 F st).2 = false) :
    (step3 F st).1 = st := by
  unfold step3 at h ⊢
  dsimp only at h ⊢
  obtain ⟨he, _⟩ := step3Go_false F 0 (st.knowledge, false) h
  rw [he]

theorem step4Cell_false {acc : AIState × Bool} {c : Cell}
    (h : (step4Cell acc c).2 = false) : step4Cell acc c = acc ∧ acc.2 = false := by
  unfold step4Cell at h ⊢
  dsimp only at h ⊢
  by_cases h1 : ((acc.1.knowledge.filter (fun s => decide (c ∈ s.cells))).all
      (fun s => decide (s.count = (s.cells.card : ℤ)))) = true
  · rw [if_pos h1] at h ⊢
    by_cases h2 : c ∈ acc.1.mines
    · rw [if_pos h2] at h ⊢
      exact ⟨rfl, h⟩
    · rw [if_neg h2] at h
      cases h
  · rw [if_neg h1] at h ⊢
    by_cases h2 : ((acc.1.knowledge.filter (fun s => decide (c ∈ s.cells))).all
        (fun s => decide (s.count = 0))) = true
    · rw [if_pos h2] at h ⊢
      by_cases h3 : c ∈ acc.1.safes
      · rw [if_pos h3] at h ⊢
        exact ⟨rfl, h⟩
      · rw [if_neg h3] at h
        cases h
    · rw [if_neg h2] at h ⊢
      exact ⟨rfl, h⟩

theorem step4_fold_false :
    ∀ (l : List Cell) (acc : AIState × Bool),
      ((l.foldl step4Cell acc).2 = false) →
      l.foldl step4Cell acc = acc ∧ acc.2 = false := by
  intro l
  induction l with
  | nil => exact fun acc h => ⟨rfl, h⟩
  | cons c rest ih =>
    intro acc h
    rw [List.foldl_cons] at h ⊢
    obtain ⟨he, hflag⟩ := ih (step4Cell acc c) h
    obtain ⟨he2, hflag2⟩ := step4Cell_false hflag
    rw [he, he2]
    exact ⟨rfl, hflag2⟩

theorem step4_false {st : AIState} (h : (step4 st).2 = false) :
    (step4 st).1 = st := by
  unfold step4 at h ⊢
  obtain ⟨he, _⟩ := step4_fold_false _ (st, false) h
  rw [he]

theorem filterKnowledge_idem (st : AIState) :
    filterKnowledge (filterKnowledge st) = filterKnowledge st := by
  unfold filterKnowledge
  dsimp only
  congr 1
  exact List.filter_eq_self.mpr (fun s hs => (List.mem_filter.mp hs).2)

theorem step1_quiet_filter {st : AIState} (hq : Step1Quiet st) :
    Step1Quiet (filterKnowledge st) :=
  fun s hs => hq s (List.mem_filter.mp hs).1

/-- The central fixed-point fact: if a round reports no change, the
state it returns is itself a no-change fixed point of the round body. -/
theorem body_false_fix {F : ℕ} {st Y : AIState}
    (h : bodyRound F st = (Y, false)) : bodyRound F Y = (Y, false) := by
  have h1f : (step1 st).2 = false := by
    have := congrArg Prod.snd h
    unfold bodyRound at this
    dsimp only at this
    exact (Bool.or_eq_false_iff.mp ((Bool.or_eq_false_iff.mp this).1)).1
  have h3f : (step3 F (filterKnowledge (step1 st).1)).2 = false := by
    have := congrArg Prod.snd h
    unfold bodyRound at this
    dsimp only at this
    exact (Bool.or_eq_false_iff.mp ((Bool.or_eq_false_iff.mp this).1)).2
  have h4f : (step4 (step3 F (filterKnowledge (step1 st).1)).1).2 = false := by
    have := congrArg Prod.snd h
    unfold bodyRound at this
    dsimp only at this
    exact (Bool.or_eq_false_iff.mp this).2
  obtain ⟨he1, hq⟩ := step1_false (Prod.ext rfl h1f)
  have he3 : (step3 F (filterKnowledge (step1 st).1)).1 = filterKnowledge (step1 st).1 :=
    step3_false h3f
  have he4 : (step4 (filterKnowledge (step1 st).1)).1 = filterKnowledge (step1 st).1 := by
    have := step4_false h4f
    rw [he3] at this
    exact this
  have hfst : (step4 (step3 F (filterKnowledge (step1 st).1)).1).1 = Y := by
    have := congrArg Prod.fst h
    unfold bodyRound at this
    dsimp only at this
    exact this
  have hY : Y = filterKnowledge st :=
    hfst.symm.trans ((congrArg (fun z => (step4 z).1) he3).trans
      (he4.trans (congrArg filterKnowledge he1)))
  have hYe : filterKnowledge (step1 st).1 = Y :=
    (congrArg filterKnowledge he1).trans hY.symm
  -- now show the body of Y is a no-change round returning Y
  have hqY : Step1Quiet Y := hY ▸ step1_quiet_filter (he1 ▸ hq)
  have hs1Y : step1 Y = (Y, false) := step1_of_quiet hqY
  have hfY : filterKnowledge Y = Y := by
    rw [hY]
    exact filterKnowledge_idem st
  have he3Y : step3 F Y = (Y, false) := by
    rw [← hYe]
    refine Prod.ext ?_ h3f
    rw [he3, hYe]
  have he4Y : step4 Y = (Y, false) := by
    refine Prod.ext ?_ ?_
    · show (step4 Y).1 = Y
      have := he4
      rw [hYe] at this
      exact this
    · show (step4 Y).2 = false
      have := h4f
      rw [he3, hYe] at this
      exact this
  unfold bodyRound
  dsimp only
  rw [hs1Y]
  dsimp only
  rw [hfY, he3Y]
  dsimp only
  rw [he4Y]
  rfl

/-- After a settle (the loop reached a no-change round), the returned
state is a no-change fixed point of the round body. -/
theorem settles_fix (F : ℕ) : ∀ (n : ℕ) (st : AIState),
    settlesWithin F n st = true →
    bodyRound F (updateLoop F n st) = (updateLoop F n st, false) := by
  intro n
  induction n with
  | zero => exact fun st h => Bool.noConfusion h
  | succ n ih =>
    intro st h
    rw [settlesWithin_succ] at h
    rw [updateLoop_succ]
    by_cases hc : (bodyRound F st).2 = true
    · rw [if_pos hc] at h ⊢
      exact ih _ h
    · have hcf : (bodyRound F st).2 = false := by
        revert hc
        cases (bodyRound F st).2 <;> simp
      rw [if_neg hc] at h ⊢
      exact body_false_fix (Prod.ext rfl hcf)

theorem fix_updateLoop {F : ℕ} {st : AIState}
    (h : bodyRound F st = (st, false)) : ∀ n, updateLoop F (n + 1) st = st := by
  intro n
  rw [updateLoop_succ, h]
  simp

/-- No empty sentence survives into the state returned by a no-change
round: that state is the freshly filtered collection. -/
theorem body_false_no_empty {F : ℕ} {st Y : AIState}
    (h : bodyRound F st = (Y, false)) :
    ∀ s ∈ Y.knowledge, 0 < s.cells.card := by
  have hfix := body_false_fix h
  have h3f : (step3 F (filterKnowledge (step1 Y).1)).2 = false := by
    have := congrArg Prod.snd hfix
    unfold bodyRound at this
    dsimp only at this
    exact (Bool.or_eq_false_iff.mp ((Bool.or_eq_false_iff.mp this).1)).2
  have h4f : (step4 (step3 F (filterKnowledge (step1 Y).1)).1).2 = false := by
    have := congrArg Prod.snd hfix
    unfold bodyRound at this
    dsimp only at this
    exact (Bool.or_eq_false_iff.mp this).2
  have h1f : (step1 Y).2 = false := by
    have := congrArg Prod.snd hfix
    unfold bodyRound at this
    dsimp only at this
    exact (Bool.or_eq_false_iff.mp ((Bool.or_eq_false_iff.mp this).1)).1
  obtain ⟨he1, _⟩ := step1_false (Prod.ext rfl h1f)
  have he3 := step3_false h3f
  have he4 : (step4 (filterKnowledge (step1 Y).1)).1 = filterKnowledge (step1 Y).1 := by
    have := step4_false h4f
    rw [he3] at this
    exact this
  have hfst : (step4 (step3 F (filterKnowledge (step1 Y).1)).1).1 = Y := by
    have := congrArg Prod.fst hfix
    unfold bodyRound at this
    dsimp only at this
    exact this
  have hEq : Y = filterKnowledge Y :=
    hfst.symm.trans ((congrArg (fun z => (step4 z).1) he3).trans
      (he4.trans (congrArg filterKnowledge he1)))
  intro s hs
  rw [hEq] at hs
  have := (List.mem_filter.mp hs).2
  simpa using this

theorem settles_no_empty {F : ℕ} {st : AIState}
    (h : settlesWithin F 100 st = true) :
    ∀ s ∈ (update_knowledge F st).knowledge, 0 < s.cells.card :=
  body_false_no_empty (settles_fix F 100 st h)

/-!
### Final claim theorems: idempotence, sentence bounds, cleanup, selectors
-/

/-- C4: once the derivation loop has settled (reached a round with no
change within the 100-round budget), running `update_knowledge` again
with no new observation in between leaves the whole engine state —
`moves_made`, `safes`, `mines` and the sentence collection — unchanged. -/
theorem C4_idempotent_after_settle :
    ∀ (F : ℕ) (st : AIState), settlesWithin F 100 st = true →
      update_knowledge F (update_knowledge F st) = update_knowledge F st := by
  intro F st h
  have hfix := settles_fix F 100 st h
  show updateLoop F 100 (updateLoop F 100 st) = updateLoop F 100 st
  exact fix_updateLoop hfix 99

/-- Witness for C4 on a freshly initialised engine, whose first round
reports no change. -/
theorem C4_witness :
    settlesWithin 100 100 (initAI 2 2) = true ∧
    update_knowledge 100 (update_knowledge 100 (initAI 2 2)) =
      update_knowledge 100 (initAI 2 2) :=
  ⟨by decide, C4_idempotent_after_settle 100 (initAI 2 2) (by decide)⟩

/-- C2 (amended): in every state reachable by ground-truth-consistent
observations every sentence satisfies `0 ≤ count ≤ |cells|`; the
`|cells| > 0` part holds whenever the loop exited through its no-change
break (at a cap-bound return an empty sentence can survive, see the
counterexample). -/
theorem C2_amended_bounds :
    (∀ (F : ℕ) (M : Cell → Bool) (st : AIState),
      ReachableW (WFObs M) F st →
      ∀ s ∈ st.knowledge, 0 ≤ s.count ∧ s.count ≤ (s.cells.card : ℤ)) ∧
    (∀ (F : ℕ) (st : AIState), settlesWithin F 100 st = true →
      ∀ s ∈ (update_knowledge F st).knowledge, 0 < s.cells.card) := by
  constructor
  · intro F M st h s hs
    have ht := (reachable_sound h).2.2 s hs
    rw [ht]
    exact ⟨trueCount_nonneg M s.cells, trueCount_le_card M s.cells⟩
  · intro F st h
    exact settles_no_empty h

theorem body_stA : bodyRound 100 stA_lit = (stA_lit, false) := by decide

theorem settles_stA : settlesWithin 100 100 stA = true := by
  rw [stA_eq, show (100 : ℕ) = 99 + 1 from rfl, settlesWithin_succ, body_stA]
  rfl

theorem update_stA : update_knowledge 100 stA = stA := by
  rw [stA_eq]
  exact fix_updateLoop body_stA 99

/-- Witness for C2 at a concrete reachable state and sentence. -/
theorem C2_witness :
    (0 ≤ (⟨{((0 : ℤ), (1 : ℤ)), ((1 : ℤ), (0 : ℤ)), ((1 : ℤ), (1 : ℤ))}, 1⟩ :
        Sentence).count ∧
      (⟨{((0 : ℤ), (1 : ℤ)), ((1 : ℤ), (0 : ℤ)), ((1 : ℤ), (1 : ℤ))}, 1⟩ :
        Sentence).count ≤
        ((⟨{((0 : ℤ), (1 : ℤ)), ((1 : ℤ), (0 : ℤ)), ((1 : ℤ), (1 : ℤ))}, 1⟩ :
          Sentence).cells.card : ℤ)) ∧
    0 < (⟨{((0 : ℤ), (1 : ℤ)), ((1 : ℤ), (0 : ℤ)), ((1 : ℤ), (1 : ℤ))}, 1⟩ :
        Sentence).cells.card := by
  have hmem : (⟨{((0 : ℤ), (1 : ℤ)), ((1 : ℤ), (0 : ℤ)), ((1 : ℤ), (1 : ℤ))}, 1⟩ :
      Sentence) ∈ stA.knowledge := by
    rw [stA_eq]
    exact List.mem_cons_self _ _
  constructor
  · exact C2_amended_bounds.1 100 M2 stA
      (ReachableW.step (ReachableW.init 2 2) wfObs_first) _ hmem
  · refine C2_amended_bounds.2 100 stA settles_stA _ ?_
    rw [update_stA]
    exact hmem

/-- C10 (amended): sentences are dropped from the collection exactly by
the per-round empty-cell cleanup, so when the loop exits through a
no-change round the returned collection holds no sentence with an empty
cell set; duplicate entries, however, are never dropped — only a newly
inferred sentence is checked (against the current collection) before
being appended. -/
theorem C10_amended_cleanup :
    (∀ (F : ℕ) (st : AIState), settlesWithin F 100 st = true →
      ∀ s ∈ (update_knowledge F st).knowledge, 0 < s.cells.card) ∧
    (∀ (s1 s2 t : Sentence) (acc : List Sentence × Bool),
      infer_from_sentences s1 s2 = some t → t ∈ acc.1 →
      inferStep s1 acc s2 = acc) := by
  constructor
  · intro F st h
    exact settles_no_empty h
  · intro s1 s2 t acc hi ht
    unfold inferStep
    rw [hi]
    exact if_pos ht

/-- Witness for C10: the settled first-observation state keeps its one
(non-empty) sentence, and an already-present inferred sentence is not
appended again. -/
theorem C10_witness :
    0 < (⟨{((0 : ℤ), (1 : ℤ)), ((1 : ℤ), (0 : ℤ)), ((1 : ℤ), (1 : ℤ))}, 1⟩ :
        Sentence).cells.card ∧
    inferStep sS ([sS, eS], false) sS = ([sS, eS], false) := by
  constructor
  · refine C10_amended_cleanup.1 100 stA settles_stA _ ?_
    rw [update_stA, stA_eq]
    exact List.mem_cons_self _ _
  · exact C10_amended_cleanup.2 sS sS eS ([sS, eS], false) (by decide) (by decide)

theorem pickMove_none_iff (S : Finset Cell) (r : ℕ) :
    pickMove S r = none ↔ S = ∅ := by
  unfold pickMove
  cases hl : sortCells S with
  | nil =>
    dsimp only
    constructor
    · intro _
      have hlen := sortCells_length S
      rw [hl] at hlen
      exact Finset.card_eq_zero.mp hlen.symm
    · exact fun _ => rfl
  | cons x xs =>
    dsimp only
    constructor
    · intro h
      cases h
    · intro hS
      have hlen := sortCells_length S
      rw [hl, hS] at hlen
      simp at hlen

theorem pickMove_mem {S : Finset Cell} {r : ℕ} {c : Cell}
    (h : pickMove S r = some c) : c ∈ S := by
  unfold pickMove at h
  revert h
  cases hl : sortCells S with
  | nil =>
    intro h
    cases h
  | cons x xs =>
    intro h
    dsimp only at h
    injection h with he
    apply mem_sortCells.mp
    rw [hl, ← he]
    exact List.get_mem _ _ _

/-- C9: each move selector signals `none` exactly when its candidate
set is empty and otherwise returns a member of that set (`safes −
moves_made` for the safe move, `allCells − moves_made − mines` for the
random move); both are pure functions of the state. -/
theorem C9_move_selectors :
    ∀ (st : AIState) (r : ℕ),
      (make_safe_move st r = none ↔ st.safes \ st.moves_made = ∅) ∧
      (∀ c, make_safe_move st r = some c → c ∈ st.safes \ st.moves_made) ∧
      (make_random_move st r = none ↔
        (st.allCells \ st.moves_made) \ st.mines = ∅) ∧
      (∀ c, make_random_move st r = some c →
        c ∈ (st.allCells \ st.moves_made) \ st.mines) := by
  intro st r
  exact ⟨pickMove_none_iff _ r, fun c h => pickMove_mem h,
    pickMove_none_iff _ r, fun c h => pickMove_mem h⟩

/-- Witness for C9: a state with one unvisited safe cell yields it, and
an exhausted 1 × 1 board yields `none`. -/
theorem C9_witness :
    (make_safe_move stW 0 = some ((0 : ℤ), (0 : ℤ)) ∧
      ((0 : ℤ), (0 : ℤ)) ∈ stW.safes \ stW.moves_made) ∧
    (make_random_move stFull 0 = none ∧
      (stFull.allCells \ stFull.moves_made) \ stFull.mines = ∅) := by
  refine ⟨⟨by decide, (C9_move_selectors stW 0).2.1 _ (by decide)⟩,
    ⟨(C9_move_selectors stFull 0).2.2.1.mpr (by decide), by decide⟩⟩

end MinesweeperAI
